import Mathlib

/-!
Verification development for the `extract-model-info-json` repository.

The program scans a directory tree, classifies each directory by the file
extensions of its direct children (a `.safetensors` file marks a weights
directory, `.zip` files are candidate archives), and for each marker-bearing
directory tries to extract the fixed entry `model_info.json` from each
candidate archive, aggregating four `u64` counters updated with
`fetch_add(1, Relaxed)` and notifying a progress reporter.

Shallow embedding conventions:
- `u64` counters are `Nat` with every increment taken modulo `2 ^ 64`,
  mirroring the wrapping `fetch_add` on `AtomicU64`.
- The `FilePorts` trait (`src/application.rs`) becomes a structure of
  functions over an abstract port state `σ`; the real `FsPorts`
  implementation mutates the filesystem, so the archive-extraction port
  threads the state. Directory paths and file names are `String`s; a file
  path is the pair of its directory and its base name (the names produced
  by `read_dir` are plain single components, so `Path::extension` of the
  full path is the extension of the base name).
- The `ProgressReporter` trait becomes a trace of `Event`s: the orchestrator
  model returns the list of notifications it would issue, in order.
- The fallible operations inside `FsPorts::extract_zip_entry_if_exists`
  (`src/infrastructure.rs`) — `File::open`, `ZipArchive::new`,
  `by_index`, `File::create`, `io::copy` — are driven by an oracle
  (`ZipEnv`) that fixes each operation's outcome, and writes to the
  filesystem are returned as explicit `WriteOp` data.
- `rayon`'s `par_iter().try_for_each` over the collected directory list is
  modelled by the sequential fold `processLanes` in enumeration order; the
  scheduling-independence of the final snapshot is proved separately by
  showing it invariant under every permutation of the counter-increment
  events of all lanes.
-/

/-- Wrap-around bound of the `u64` counters (`AtomicU64::fetch_add` wraps). -/
def U64LIMIT : Nat := 2 ^ 64

/-- One `fetch_add(1, Ordering::Relaxed)` on an `AtomicU64`, as a pure
update of the counter value. -/
def incr (c : Nat) : Nat := (c + 1) % U64LIMIT

/-- Mirror of `ExtractStats` (src/domain.rs): four `u64` counters. -/
structure ExtractStats where
  directories_scanned : Nat
  safetensors_directories : Nat
  zip_files_checked : Nat
  extracted : Nat
deriving DecidableEq, Repr

/-- Mirror of `ExtractStats::default()`: all four counters zero. -/
def zeroStats : ExtractStats := ⟨0, 0, 0, 0⟩

/-- Componentwise order on snapshots, used to state counter monotonicity. -/
abbrev statsLe (a b : ExtractStats) : Prop :=
  a.directories_scanned ≤ b.directories_scanned ∧
    a.safetensors_directories ≤ b.safetensors_directories ∧
      a.zip_files_checked ≤ b.zip_files_checked ∧ a.extracted ≤ b.extracted

/-- The two cross-field invariants claimed of every snapshot. -/
abbrev statsInv (s : ExtractStats) : Prop :=
  s.extracted ≤ s.zip_files_checked ∧
    s.safetensors_directories ≤ s.directories_scanned

/-- All four counters below the `u64` wrap bound; holds initially and is
preserved by every increment. -/
abbrev statsBounded (s : ExtractStats) : Prop :=
  s.directories_scanned < U64LIMIT ∧ s.safetensors_directories < U64LIMIT ∧
    s.zip_files_checked < U64LIMIT ∧ s.extracted < U64LIMIT

/-- Mirror of `MODEL_INFO_FILE_NAME` (src/domain.rs). -/
def MODEL_INFO_FILE_NAME : String := "model_info.json"

/-- Mirror of `ExtractError` (src/application.rs): an I/O error or a
message; both carry only their rendered text in the model. -/
inductive ExtractError where
  | ioError (msg : String)
  | message (msg : String)
deriving DecidableEq, Repr

/-- Mirror of `ZipEntryOutcome` (src/application.rs). -/
inductive ZipEntryOutcome where
  | extracted
  | notFound
  | invalidZip (reason : String)
deriving DecidableEq, Repr

/-- Notifications issued through the `ProgressReporter` trait, in order:
`on_start`, `on_update` (with the snapshot passed), `on_invalid_zip`
(with the archive's directory, base name and reason), `on_finish`. -/
inductive Event where
  | start (root : String)
  | update (s : ExtractStats)
  | invalidZip (dir : String) (zipName : String) (reason : String)
  | finish (s : ExtractStats)
deriving DecidableEq, Repr

/-- Recognizer for `on_update` events. -/
def Event.isUpdate : Event → Bool
  | .update _ => true
  | _ => false

/-- Recognizer for `on_invalid_zip` events. -/
def Event.isInvalid : Event → Bool
  | .invalidZip _ _ _ => true
  | _ => false

/-- Recognizer for `on_finish` events. -/
def Event.isFin : Event → Bool
  | .finish _ => true
  | _ => false

/-- The snapshots handed to the reporter by a trace: the arguments of its
`on_update` and `on_finish` notifications, in order. -/
def snapshotsOf : List Event → List ExtractStats
  | [] => []
  | Event.update s :: es => s :: snapshotsOf es
  | Event.finish s :: es => s :: snapshotsOf es
  | _ :: es => snapshotsOf es

/-! ## `Path::extension` and `Path::file_name` semantics

`extract_model_info` classifies files with `file.extension()`, and
`extract_zip_entry_if_exists` compares `Path::new(entry.name()).file_name()`
against the target entry name. Both are modelled on the Unix rules used by
Rust's `std::path`: components are split on `'/'`, `"."` components are
dropped, a path whose last component is `".."` has no file name, and the
extension of a file name is the part after its last `'.'` ignoring a dot in
position zero (so `".safetensors"` has no extension and `"foo."` has
extension `""`). -/

/-- Split a character list around its last `'.'`, if any. -/
def splitAtLastDot : List Char → Option (List Char × List Char)
  | [] => none
  | c :: cs =>
    match splitAtLastDot cs with
    | some (b, a) => some (c :: b, a)
    | none => if c = '.' then some ([], cs) else none

/-- Rust's `Path::extension` restricted to a single normal file-name
component, which is the only shape `read_dir` produces: the part after the
last `'.'` that does not occupy position zero; `".."` never has one. -/
def rustExtension (name : String) : Option String :=
  if name = ".." then none
  else
    match name.data with
    | [] => none
    | _ :: rest =>
      match splitAtLastDot rest with
      | none => none
      | some (_, a) => some (String.mk a)

/-- Split a character list at every `'/'` separator. -/
def splitOnSlash : List Char → List (List Char)
  | [] => [[]]
  | c :: cs =>
    if c = '/' then [] :: splitOnSlash cs
    else
      match splitOnSlash cs with
      | [] => [[c]]
      | p :: ps => (c :: p) :: ps

/-- Slash-separated components of a stored archive entry name, with empty
and `"."` components dropped, as Rust's `Path::components` does. -/
def pathComponents (s : String) : List String :=
  ((splitOnSlash s.data).map String.mk).filter (fun c => c != "" && c != ".")

/-- Rust's `Path::file_name` on a stored archive entry name: the trailing
component, unless it is `".."` or there is none. -/
def fileNameOf (s : String) : Option String :=
  match (pathComponents s).getLast? with
  | none => none
  | some c => if c = ".." then none else some c

/-! ## Directory classifier

Mirror of the `for file in files` loop of `extract_model_info`
(src/application.rs lines 108-121): a file whose extension is exactly
`"safetensors"` sets the marker flag, otherwise one whose extension is
exactly `"zip"` is pushed onto the candidate-archive list, and every other
file is ignored. The loop is pure: it touches neither counters nor
reporter. -/

/-- Classify a directory listing (base names of its files, in listing
order) into the weights-marker flag and the candidate archives in order. -/
def classify : List String → Bool × List String
  | [] => (false, [])
  | f :: rest =>
    let r := classify rest
    match rustExtension f with
    | some e =>
      if e = "safetensors" then (true, r.2)
      else if e = "zip" then (r.1, f :: r.2)
      else r
    | none => r

/-! ## Ports and orchestrator -/

/-- Mirror of the `FilePorts` trait (src/application.rs) over an abstract
port state `σ`. `for_each_directory` is modelled by the list of directories
it would hand to the collecting callback, or the error it propagates;
`list_files_in_dir` returns the base names of the files directly inside a
directory; `extract_zip_entry_if_exists` receives the archive path (its
directory and base name), the target entry name and the output directory,
and may update the state (the real `FsPorts` writes the output file). -/
structure FilePorts (σ : Type) where
  for_each_directory : σ → Except ExtractError (List String)
  list_files_in_dir : σ → String → Except ExtractError (List String)
  extract_zip_entry_if_exists :
    σ → String × String → String → String →
      Except ExtractError ZipEntryOutcome × σ

/-- Result of one directory lane (or a prefix of the run): the counter
snapshot reached, the notifications issued, the propagated fault if any,
and the port state. -/
structure LaneResult (σ : Type) where
  stats : ExtractStats
  events : List Event
  fault : Option ExtractError
  state : σ

/-- Mirror of the `for zip_path in zip_files` loop of `extract_model_info`
(src/application.rs lines 128-149): per archive, increment
`zip_files_checked`, call the inspector port, on `Extracted` increment
`extracted`, on `InvalidZip` notify `on_invalid_zip`, then notify
`on_update` with the current snapshot; an `Err` from the port propagates. -/
def processZips {σ : Type} (p : FilePorts σ) (dirPath : String) :
    σ → List String → ExtractStats → LaneResult σ
  | s, [], st => ⟨st, [], none, s⟩
  | s, z :: rest, st =>
    let st1 := { st with zip_files_checked := incr st.zip_files_checked }
    match p.extract_zip_entry_if_exists s (dirPath, z) MODEL_INFO_FILE_NAME dirPath with
    | (.error e, s') => ⟨st1, [], some e, s'⟩
    | (.ok outcome, s') =>
      let step :=
        match outcome with
        | .extracted =>
          ({ st1 with extracted := incr st1.extracted }, ([] : List Event))
        | .invalidZip r => (st1, [Event.invalidZip dirPath z r])
        | .notFound => (st1, ([] : List Event))
      let r := processZips p dirPath s' rest step.1
      ⟨r.stats, step.2 ++ Event.update step.1 :: r.events, r.fault, r.state⟩

/-- Mirror of one directory lane of `extract_model_info`
(src/application.rs lines 104-155): increment `directories_scanned`, list
the files (propagating a listing fault), classify, and either process the
candidate archives after incrementing `safetensors_directories` and
notifying `on_update`, or notify `on_update` once and stop. -/
def processLane {σ : Type} (p : FilePorts σ) (s : σ) (dirPath : String)
    (st : ExtractStats) : LaneResult σ :=
  let st1 := { st with directories_scanned := incr st.directories_scanned }
  match p.list_files_in_dir s dirPath with
  | .error e => ⟨st1, [], some e, s⟩
  | .ok files =>
    let c := classify files
    if c.1 then
      let st2 :=
        { st1 with
          safetensors_directories := incr st1.safetensors_directories }
      let r := processZips p dirPath s c.2 st2
      ⟨r.stats, Event.update st2 :: r.events, r.fault, r.state⟩
    else ⟨st1, [Event.update st1], none, s⟩

/-- The fan-out over the collected directory list, in enumeration order
(the sequential semantics of `par_iter().try_for_each`); a lane's fault
stops the run. -/
def processLanes {σ : Type} (p : FilePorts σ) :
    σ → List String → ExtractStats → LaneResult σ
  | s, [], st => ⟨st, [], none, s⟩
  | s, d :: rest, st =>
    let r := processLane p s d st
    match r.fault with
    | some e => ⟨r.stats, r.events, some e, r.state⟩
    | none =>
      let r2 := processLanes p r.state rest r.stats
      ⟨r2.stats, r.events ++ r2.events, r2.fault, r2.state⟩

/-- Mirror of `extract_model_info` (src/application.rs lines 89-161):
notify `on_start`, enumerate every directory into a list (propagating an
enumeration fault), process the lanes, and on success notify `on_finish`
with the final snapshot and return it. The model returns the notification
trace, the final port state and the `Result`. -/
def extract_model_info {σ : Type} (p : FilePorts σ) (s : σ) (root : String) :
    List Event × σ × Except ExtractError ExtractStats :=
  match p.for_each_directory s with
  | .error e => ([Event.start root], s, .error e)
  | .ok dirs =>
    let r := processLanes p s dirs zeroStats
    match r.fault with
    | some e => (Event.start root :: r.events, r.state, .error e)
    | none =>
      (Event.start root :: r.events ++ [Event.finish r.stats], r.state,
        .ok r.stats)

/-- Stateless ports whose every call succeeds: the enumeration yields
`dirs`, listing directory `d` yields `L d`, and inspecting archive `zp`
for entry `en` with output directory `od` yields the outcome `O zp en od`.
This is a `FilePorts Unit` instance, the "fixed behaviour of the file
ports" against which scheduling-independent properties are stated. -/
def okPorts (dirs : List String) (L : String → List String)
    (O : String × String → String → String → ZipEntryOutcome) :
    FilePorts Unit where
  for_each_directory := fun _ => .ok dirs
  list_files_in_dir := fun _ d => .ok (L d)
  extract_zip_entry_if_exists := fun _ zp en od => (.ok (O zp en od), ())

/-- Stateless but fallible ports: each operation's outcome (success or
propagated fault) is a fixed function of its arguments. -/
structure PurePorts where
  dirs : Except ExtractError (List String)
  listing : String → Except ExtractError (List String)
  inspect :
    String × String → String → String → Except ExtractError ZipEntryOutcome

/-- View stateless fallible ports as `FilePorts Unit`. -/
def PurePorts.toPorts (pp : PurePorts) : FilePorts Unit where
  for_each_directory := fun _ => pp.dirs
  list_files_in_dir := fun _ d => pp.listing d
  extract_zip_entry_if_exists := fun _ zp en od => (pp.inspect zp en od, ())

/-! ## Archive inspector (`FsPorts::extract_zip_entry_if_exists`,
src/infrastructure.rs lines 55-107)

Each fallible library call is driven by an oracle field of `ZipEnv`:
`File::open(zip_path)` by `openResult` (a nonexistent, unreadable or
otherwise unopenable file is an `error`), `ZipArchive::new` by
`parseResult` (an empty, truncated or non-zip file is an `error`, a parsed
archive is the `by_index` results over `0..archive.len()` in index order),
`File::create(output_path)` by `createResult` and `io::copy` by
`copyResult`. Writes are reported as `WriteOp` values: the created file is
`output_dir.flatten(entry_name)`; its content is the entry's bytes when the
copy succeeds and unspecified when the copy fails after creation. -/

/-- One `archive.by_index(index)` result: a read error, or the entry's
stored name, directory flag and content bytes. -/
inductive ZipIndexEntry where
  | readErr (msg : String)
  | entry (ename : String) (edir : Bool) (content : List Nat)
deriving DecidableEq, Repr

/-- Oracle fixing the outcome of each fallible operation of one
`extract_zip_entry_if_exists` call. -/
structure ZipEnv where
  openResult : Except String Unit
  parseResult : Except String (List ZipIndexEntry)
  createResult : Except String Unit
  copyResult : Except String Unit
deriving Repr

/-- A file creation performed by the inspector: the output directory, the
created file's name, and `some` bytes on a completed copy (`none` when
`io::copy` failed after the file was created). -/
structure WriteOp where
  dir : String
  name : String
  content : Option (List Nat)
deriving DecidableEq, Repr

/-- An index entry the lookup loop passes over without extracting: a
directory entry, or a file entry whose base name differs from the target
(never a read error, which stops the loop). -/
def skipsEntry (entryName : String) : ZipIndexEntry → Prop
  | .readErr _ => False
  | .entry nm isdir _ => isdir = true ∨ fileNameOf nm ≠ some entryName

instance (entryName : String) (e : ZipIndexEntry) :
    Decidable (skipsEntry entryName e) := by
  cases e with
  | readErr msg => exact isFalse (fun h => h)
  | entry nm isdir cont => exact inferInstanceAs (Decidable (_ ∨ _))

/-- Mirror of the `for index in 0..archive.len()` loop: skip directory
entries, extract the first non-directory entry whose base file name equals
`entryName` (create the output file, copy the bytes, folding either
failure into `InvalidZip`), and fall through to `NotFound`. -/
def findEntryLoop (env : ZipEnv) (entryName outputDir : String) :
    List ZipIndexEntry → Except ExtractError ZipEntryOutcome × List WriteOp
  | [] => (.ok .notFound, [])
  | .readErr msg :: _ => (.ok (.invalidZip msg), [])
  | .entry nm isdir cont :: rest =>
    if isdir then findEntryLoop env entryName outputDir rest
    else if fileNameOf nm = some entryName then
      match env.createResult with
      | .error e => (.ok (.invalidZip e), [])
      | .ok _ =>
        match env.copyResult with
        | .error e => (.ok (.invalidZip e), [⟨outputDir, entryName, none⟩])
        | .ok _ => (.ok .extracted, [⟨outputDir, entryName, some cont⟩])
    else findEntryLoop env entryName outputDir rest

/-- Mirror of `FsPorts::extract_zip_entry_if_exists`: fold an open failure
and a parse failure into `Ok(InvalidZip(reason))`, then run the index
loop. -/
def FsPorts.extract_zip_entry_if_exists (env : ZipEnv)
    (entryName outputDir : String) :
    Except ExtractError ZipEntryOutcome × List WriteOp :=
  match env.openResult with
  | .error e => (.ok (.invalidZip e), [])
  | .ok _ =>
    match env.parseResult with
    | .error e => (.ok (.invalidZip e), [])
    | .ok entries => findEntryLoop env entryName outputDir entries

/-! ## Concrete filesystem world

A small model of the real filesystem backing `FsPorts`: a fixed directory
tree and an association list from (directory, base name) to file data. A
file is either a well-formed zip archive with its index entries or a plain
byte file. Opening succeeds exactly when the file exists, parsing succeeds
exactly when it is an archive, and creating/copying the output succeed;
the inspector's writes are applied back to the world (create truncates and
overwrites an existing file of the same name). -/

/-- Content of one file in the world. -/
inductive FileData where
  | zipOf (entries : List ZipIndexEntry)
  | plain (bytes : List Nat)
deriving DecidableEq, Repr

/-- The filesystem world: the directories the walk yields, and the files
with their data, keyed by (directory, base name). -/
structure World where
  dirs : List String
  files : List ((String × String) × FileData)
deriving Repr

/-- Look up a file's data by its (directory, base name) key. -/
def World.lookup (w : World) (k : String × String) : Option FileData :=
  (w.files.find? (fun kv => kv.1 == k)).map (fun kv => kv.2)

/-- Create/truncate a file: replace the data at an existing key in place,
or append a new file to its directory's listing. -/
def World.write (w : World) (k : String × String) (c : List Nat) : World :=
  if (w.files.find? (fun kv => kv.1 == k)).isSome then
    { w with
      files := w.files.map (fun kv => if kv.1 == k then (k, .plain c) else kv) }
  else { w with files := w.files ++ [(k, .plain c)] }

/-- The oracle that the world presents for one archive path: opening fails
iff the file is absent, parsing fails iff it is not an archive, and the
output-side operations succeed. -/
def World.zipEnv (w : World) (zp : String × String) : ZipEnv :=
  match w.lookup zp with
  | none => ⟨.error "no such file", .error "no such file", .ok (), .ok ()⟩
  | some (.plain _) => ⟨.ok (), .error "invalid Zip archive", .ok (), .ok ()⟩
  | some (.zipOf es) => ⟨.ok (), .ok es, .ok (), .ok ()⟩

/-- Apply the inspector's writes to the world. -/
def World.applyWrites (w : World) (ws : List WriteOp) : World :=
  ws.foldl (fun w op => w.write (op.dir, op.name) (op.content.getD [])) w

/-- `FsPorts` over the world: enumeration yields the world's directories,
listing yields the base names of a directory's files in listing order, and
archive inspection runs the modelled inspector and applies its writes. -/
def worldPorts : FilePorts World where
  for_each_directory := fun w => .ok w.dirs
  list_files_in_dir := fun w d =>
    .ok ((w.files.filter (fun kv => kv.1.1 == d)).map (fun kv => kv.1.2))
  extract_zip_entry_if_exists := fun w zp en od =>
    let r := FsPorts.extract_zip_entry_if_exists (w.zipEnv zp) en od
    (r.1, w.applyWrites r.2)

/-! ## Closed-form run summaries

Spec-side recomputations of what a successful run over fixed-behaviour
ports produces, used to characterize the orchestrator: per-lane counter
contributions, the expected invalid-archive notifications, and the final
snapshot. `outcomeOf O d z` is the inspection outcome of archive `z` of
directory `d` exactly as the orchestrator invokes the port: entry name
`MODEL_INFO_FILE_NAME`, output directory `d`. -/

/-- Outcome of the port call the orchestrator makes for archive `z` found
in directory `d`. -/
def outcomeOf (O : String × String → String → String → ZipEntryOutcome)
    (d z : String) : ZipEntryOutcome :=
  O (d, z) MODEL_INFO_FILE_NAME d

/-- Contribution of directory `d` to `safetensors_directories`. -/
def laneSafeCount (L : String → List String) (d : String) : Nat :=
  if (classify (L d)).1 then 1 else 0

/-- Contribution of directory `d` to `zip_files_checked`: its candidate
archives are inspected only when its marker is present. -/
def laneZipCount (L : String → List String) (d : String) : Nat :=
  if (classify (L d)).1 then (classify (L d)).2.length else 0

/-- Contribution of directory `d` to `extracted`: its inspected archives
whose outcome is `Extracted`. -/
def laneExtCount (L : String → List String)
    (O : String × String → String → String → ZipEntryOutcome)
    (d : String) : Nat :=
  if (classify (L d)).1 then
    (classify (L d)).2.countP (fun z => outcomeOf O d z == .extracted)
  else 0

/-- The `on_invalid_zip` notifications directory `d`'s lane issues, in
archive order. -/
def laneInvalid (L : String → List String)
    (O : String × String → String → String → ZipEntryOutcome)
    (d : String) : List Event :=
  if (classify (L d)).1 then
    (classify (L d)).2.filterMap (fun z =>
      match outcomeOf O d z with
      | .invalidZip r => some (Event.invalidZip d z r)
      | _ => none)
  else []

/-- The final snapshot of a successful run over `okPorts dirs L O`: each
counter is its total number of increments, wrapped as `fetch_add` wraps. -/
def runFinalStats (dirs : List String) (L : String → List String)
    (O : String × String → String → String → ZipEntryOutcome) :
    ExtractStats :=
  ⟨dirs.length % U64LIMIT,
    (dirs.map (laneSafeCount L)).sum % U64LIMIT,
    (dirs.map (laneZipCount L)).sum % U64LIMIT,
    (dirs.map (laneExtCount L O)).sum % U64LIMIT⟩

/-- All `on_invalid_zip` notifications of a run, in lane order. -/
def runInvalid (dirs : List String) (L : String → List String)
    (O : String × String → String → String → ZipEntryOutcome) :
    List Event :=
  (dirs.map (laneInvalid L O)).flatten

/-! ## Counter events and the parallel aggregation model

Under `par_iter`, the lanes run concurrently and their atomic increments
interleave arbitrarily; only the per-field `fetch_add`s are serialized.
A lane's effect on the aggregator is its list of counter events
(`laneCEvents`); a parallel schedule is any interleaving of the lanes'
event lists, i.e. any permutation of their concatenation. The final
snapshot is the fold of the schedule over the zeroed stats. -/

/-- One atomic counter increment. -/
inductive CEvent where
  | cDir
  | cSafe
  | cZip
  | cExt
deriving DecidableEq, Repr

/-- Apply one atomic increment to the aggregator. -/
def applyCEvent (s : ExtractStats) : CEvent → ExtractStats
  | .cDir => { s with directories_scanned := incr s.directories_scanned }
  | .cSafe =>
    { s with safetensors_directories := incr s.safetensors_directories }
  | .cZip => { s with zip_files_checked := incr s.zip_files_checked }
  | .cExt => { s with extracted := incr s.extracted }

/-- Fold a schedule of atomic increments over a starting snapshot. -/
def applyCEvents (s : ExtractStats) (l : List CEvent) : ExtractStats :=
  l.foldl applyCEvent s

/-- The counter events of directory `d`'s lane over fixed-behaviour ports,
in that lane's own program order. -/
def laneCEvents (L : String → List String)
    (O : String × String → String → String → ZipEntryOutcome)
    (d : String) : List CEvent :=
  CEvent.cDir ::
    (if (classify (L d)).1 then
      CEvent.cSafe ::
        ((classify (L d)).2.map (fun z =>
          CEvent.cZip ::
            (if outcomeOf O d z == .extracted then [CEvent.cExt] else []))).flatten
    else [])

/-- The lanes' counter events in enumeration order; a parallel schedule is
any permutation of this list. -/
def runCEvents (dirs : List String) (L : String → List String)
    (O : String × String → String → String → ZipEntryOutcome) :
    List CEvent :=
  (dirs.map (laneCEvents L O)).flatten

/-! ## The idempotent-extraction scenario

A root directory holding a weights marker, one valid archive whose index
contains the target entry with bytes `bs`, and optionally a pre-existing
output file. -/

/-- The scenario's archive: one non-directory entry named
`model_info.json` with content `bs`. -/
def c8Archive (bs : List Nat) : FileData :=
  .zipOf [.entry "model_info.json" false bs]

/-- The scenario world: the single directory `"root"` with a marker file
and the archive, plus the optional pre-existing output file `old`. -/
def c8World (old : Option (List Nat)) (bs : List Nat) : World where
  dirs := ["root"]
  files :=
    [(("root", "weights.safetensors"), .plain []),
      (("root", "model.zip"), c8Archive bs)] ++
      (match old with
      | some c => [(("root", "model_info.json"), FileData.plain c)]
      | none => [])

/-! ## Basic lemmas on counters and the extension model -/

/-- A wrapped counter value is always below the wrap bound. -/
theorem incr_lt (c : Nat) : incr c < U64LIMIT := Nat.mod_lt _ (by decide)

/-- Below the wrap bound, `fetch_add(1)` is an ordinary increment. -/
theorem incr_of_lt {c : Nat} (h : c + 1 < U64LIMIT) : incr c = c + 1 :=
  Nat.mod_eq_of_lt h

/-- A dotless character list has no last-dot split. -/
theorem splitAtLastDot_of_not_mem {cs : List Char} (h : '.' ∉ cs) :
    splitAtLastDot cs = none := by
  induction cs with
  | nil => rfl
  | cons c cs ih =>
    simp only [List.mem_cons, not_or] at h
    simp [splitAtLastDot, ih h.2, Ne.symm h.1]

/-- When the last character is a dot, the last-dot split leaves an empty
part after the dot. -/
theorem splitAtLastDot_of_getLast_dot {cs : List Char}
    (h : cs.getLast? = some '.') : ∃ b, splitAtLastDot cs = some (b, []) := by
  induction cs with
  | nil => simp at h
  | cons c cs ih =>
    cases cs with
    | nil =>
      simp only [List.getLast?_singleton, Option.some.injEq] at h
      subst h
      exact ⟨[], by simp [splitAtLastDot]⟩
    | cons c' cs' =>
      rw [List.getLast?_cons_cons] at h
      obtain ⟨b, hb⟩ := ih h
      refine ⟨c :: b, ?_⟩
      show (match splitAtLastDot (c' :: cs') with
        | some (bb, aa) => some (c :: bb, aa)
        | none => if c = '.' then some ([], c' :: cs') else none) =
          some (c :: b, [])
      rw [hb]

/-- Reduction of `rustExtension` on a nonempty name other than `".."`. -/
theorem rustExtension_cons {name : String} {c : Char} {rest : List Char}
    (hdd : name ≠ "..") (hd : name.data = c :: rest) :
    rustExtension name =
      match splitAtLastDot rest with
      | none => none
      | some (_, a) => some (String.mk a) := by
  unfold rustExtension
  rw [if_neg hdd, hd]

/-- A name with no dot past its first character has no extension. -/
theorem rustExtension_none_of_no_dot {name : String}
    (h : '.' ∉ name.data.drop 1) : rustExtension name = none := by
  by_cases hdd : name = ".."
  · simp [rustExtension, hdd]
  · cases hd : name.data with
    | nil => simp [rustExtension, hdd, hd]
    | cons c rest =>
      rw [hd] at h
      simp only [List.drop_succ_cons, List.drop_zero] at h
      rw [rustExtension_cons hdd hd, splitAtLastDot_of_not_mem h]

/-- A name ending in a dot has no extension or the empty extension. -/
theorem rustExtension_of_getLast_dot {name : String}
    (h : name.data.getLast? = some '.') :
    rustExtension name = none ∨ rustExtension name = some "" := by
  by_cases hdd : name = ".."
  · simp [rustExtension, hdd]
  · cases hd : name.data with
    | nil => exact Or.inl (by simp [rustExtension, hdd, hd])
    | cons c rest =>
      rw [hd] at h
      cases rest with
      | nil =>
        simp only [List.getLast?_singleton, Option.some.injEq] at h
        subst h
        exact Or.inl (by rw [rustExtension_cons hdd hd]
                         simp [splitAtLastDot])
      | cons c' cs' =>
        rw [List.getLast?_cons_cons] at h
        obtain ⟨b, hb⟩ := splitAtLastDot_of_getLast_dot h
        rw [rustExtension_cons hdd hd, hb]
        right
        rfl

/-- The classifier equals marker-presence by `any` and archive selection
by `filter`, both on exact extension equality. -/
theorem classify_eq (files : List String) :
    classify files =
      (files.any (fun f => rustExtension f == some "safetensors"),
        files.filter (fun f => rustExtension f == some "zip")) := by
  induction files with
  | nil => rfl
  | cons f rest ih =>
    simp only [classify, ih, List.any_cons, List.filter_cons]
    cases h : rustExtension f with
    | none => simp [h]
    | some e =>
      by_cases hs : e = "safetensors"
      · subst hs; simp [h]
      · by_cases hz : e = "zip"
        · subst hz; simp [h, beq_iff_eq]
        · simp [h, hs, hz, beq_iff_eq]

/-- C6: the directory classifier is a pure function of the listing that
flags a weights directory iff some file's extension is exactly
`"safetensors"`, selects as candidate archives exactly the files whose
extension is exactly `"zip"` (in listing order), and is unmoved by case
variants such as `"ZIP"` or `"Safetensors"`; being a pure function of its
input, it touches neither counters nor notifier. -/
theorem c6_classifier_exact (files : List String) :
    ((classify files).1 = true ↔
      ∃ f ∈ files, rustExtension f = some "safetensors") ∧
    (classify files).2 =
      files.filter (fun f => rustExtension f == some "zip") ∧
    (∀ f, f ∈ (classify files).2 ↔
      f ∈ files ∧ rustExtension f = some "zip") ∧
    classify ["a.ZIP", "b.Safetensors", "c.zIp", "d.SAFETENSORS"] =
      (false, []) := by
  refine ⟨?_, ?_, ?_, by decide⟩
  · rw [classify_eq]
    simp [List.any_eq_true, beq_iff_eq]
  · rw [classify_eq]
  · intro f
    rw [classify_eq]
    simp [List.mem_filter, beq_iff_eq]

/-- C10: classification keys on `Path::extension`, so a file name with no
dot after its first character — such as `"safetensors"`, `".safetensors"`
or `".zip"` — and likewise a name ending in a bare dot, has no marker or
archive extension and classifies as neither. -/
theorem c10_dotless_names_classify_as_neither (name : String)
    (h : '.' ∉ name.data.drop 1 ∨ name.data.getLast? = some '.') :
    rustExtension name ≠ some "safetensors" ∧
      rustExtension name ≠ some "zip" ∧ classify [name] = (false, []) := by
  have hx : rustExtension name = none ∨ rustExtension name = some "" := by
    cases h with
    | inl h => exact Or.inl (rustExtension_none_of_no_dot h)
    | inr h => exact rustExtension_of_getLast_dot h
  obtain hx | hx := hx <;> refine ⟨by simp [hx], by simp [hx], ?_⟩ <;>
    simp [classify, hx]

/-- Witness for C10 at the four names the claim lists. -/
theorem c10_dotless_names_classify_as_neither_witness :
    (rustExtension "safetensors" ≠ some "safetensors" ∧
        rustExtension "safetensors" ≠ some "zip" ∧
        classify ["safetensors"] = (false, [])) ∧
      (rustExtension ".safetensors" ≠ some "safetensors" ∧
        rustExtension ".safetensors" ≠ some "zip" ∧
        classify [".safetensors"] = (false, [])) ∧
      (rustExtension ".zip" ≠ some "safetensors" ∧
        rustExtension ".zip" ≠ some "zip" ∧
        classify [".zip"] = (false, [])) ∧
      (rustExtension "model." ≠ some "safetensors" ∧
        rustExtension "model." ≠ some "zip" ∧
        classify ["model."] = (false, [])) :=
  ⟨c10_dotless_names_classify_as_neither "safetensors" (Or.inl (by decide)),
    c10_dotless_names_classify_as_neither ".safetensors" (Or.inl (by decide)),
    c10_dotless_names_classify_as_neither ".zip" (Or.inl (by decide)),
    c10_dotless_names_classify_as_neither "model." (Or.inr (by decide))⟩

/-! ## Monotone snapshot chains -/

/-- The componentwise order is reflexive. -/
theorem statsLe_refl (s : ExtractStats) : statsLe s s :=
  ⟨le_refl _, le_refl _, le_refl _, le_refl _⟩

/-- The componentwise order is transitive. -/
theorem statsLe_trans {a b c : ExtractStats} (h1 : statsLe a b)
    (h2 : statsLe b c) : statsLe a c :=
  ⟨h1.1.trans h2.1, h1.2.1.trans h2.2.1, h1.2.2.1.trans h2.2.2.1,
    h1.2.2.2.trans h2.2.2.2⟩

/-- Snapshot extraction distributes over trace concatenation. -/
theorem snapshotsOf_append (a b : List Event) :
    snapshotsOf (a ++ b) = snapshotsOf a ++ snapshotsOf b := by
  induction a with
  | nil => rfl
  | cons e a ih => cases e <;> simp [snapshotsOf, ih]

/-- Trace-segment property: starting from counter state `st`, the segment's
snapshots rise monotonically from `st` and end at or below the segment's
final counter state `st'`. -/
def ChainFrom (st : ExtractStats) (evs : List Event) (st' : ExtractStats) :
    Prop :=
  List.Chain' statsLe (st :: snapshotsOf evs) ∧ statsLe st st' ∧
    ∀ x ∈ (st :: snapshotsOf evs).getLast?, statsLe x st'

/-- An eventless segment whose counters only rose. -/
theorem chainFrom_nil {st st' : ExtractStats} (h : statsLe st st') :
    ChainFrom st [] st' := by
  refine ⟨List.chain'_singleton st, h, ?_⟩
  intro x hx
  simp only [snapshotsOf, List.getLast?_singleton, Option.mem_def,
    Option.some.injEq] at hx
  rw [← hx]
  exact h

/-- A segment reporting exactly its final counter state. -/
theorem chainFrom_update {st st' : ExtractStats} (h : statsLe st st') :
    ChainFrom st [Event.update st'] st' := by
  refine ⟨List.chain'_pair.mpr h, h, ?_⟩
  intro x hx
  simp only [snapshotsOf, List.getLast?_cons_cons, List.getLast?_singleton,
    Option.mem_def, Option.some.injEq] at hx
  rw [← hx]
  exact statsLe_refl _

/-- Segments with the same snapshots carry the same chain property. -/
theorem chainFrom_congr {st st' : ExtractStats} {evs evs' : List Event}
    (h : snapshotsOf evs = snapshotsOf evs') (hc : ChainFrom st evs st') :
    ChainFrom st evs' st' := by
  unfold ChainFrom at hc ⊢
  rw [← h]
  exact hc

/-- Segment composition: monotone chains concatenate. -/
theorem chainFrom_comp {st st1 st2 : ExtractStats} (evs1 evs2 : List Event)
    (h1 : ChainFrom st evs1 st1) (h2 : ChainFrom st1 evs2 st2) :
    ChainFrom st (evs1 ++ evs2) st2 := by
  obtain ⟨c1, le1, g1⟩ := h1
  obtain ⟨c2, le2, g2⟩ := h2
  have hsnap := snapshotsOf_append evs1 evs2
  refine ⟨?_, statsLe_trans le1 le2, ?_⟩
  · rw [hsnap, ← List.cons_append, List.chain'_append]
    refine ⟨c1, (List.chain'_cons'.mp c2).2, ?_⟩
    intro x hx y hy
    exact statsLe_trans (g1 x hx) ((List.chain'_cons'.mp c2).1 y hy)
  · rw [hsnap, ← List.cons_append]
    intro x hx
    cases hsn : snapshotsOf evs2 with
    | nil =>
      rw [hsn, List.append_nil] at hx
      exact statsLe_trans (g1 x hx) le2
    | cons y ys =>
      rw [hsn, List.getLast?_append_cons] at hx
      exact g2 x (by rw [hsn, List.getLast?_cons_cons]; exact hx)

/-- Prefixing a monotone segment with the report of its base snapshot. -/
theorem chainFrom_cons_update {st st1 st2 : ExtractStats} {evs : List Event}
    (h : statsLe st st1) (hc : ChainFrom st1 evs st2) :
    ChainFrom st (Event.update st1 :: evs) st2 :=
  chainFrom_comp [Event.update st1] evs (chainFrom_update h) hc

/-- An `on_invalid_zip` notification reports no snapshot, so it does not
disturb a segment's chain. -/
theorem chainFrom_cons_invalid {st st2 : ExtractStats} {evs : List Event}
    {a b c : String} (hc : ChainFrom st evs st2) :
    ChainFrom st (Event.invalidZip a b c :: evs) st2 :=
  chainFrom_congr rfl hc

/-- A classification selects at most as many archives as there are files. -/
theorem classify_snd_length_le (files : List String) :
    (classify files).2.length ≤ files.length := by
  rw [classify_eq]
  exact List.length_filter_le _ _

/-- Per-archive loop invariants: while the checked-archives counter stays
below its wrap bound, the loop preserves the untouched counters, raises
`zip_files_checked` by at most the number of archives, keeps
`extracted ≤ zip_files_checked` and `safetensors ≤ directories`, and
reports a monotone chain of snapshots all satisfying the invariants. -/
theorem processZips_mono {σ : Type} (p : FilePorts σ) (d : String)
    (zips : List String) : ∀ (s : σ) (st : ExtractStats),
    st.zip_files_checked + zips.length < U64LIMIT →
    statsInv st →
    (processZips p d s zips st).stats.directories_scanned =
        st.directories_scanned ∧
      (processZips p d s zips st).stats.safetensors_directories =
        st.safetensors_directories ∧
      (processZips p d s zips st).stats.zip_files_checked ≤
        st.zip_files_checked + zips.length ∧
      statsInv (processZips p d s zips st).stats ∧
      ChainFrom st (processZips p d s zips st).events
        (processZips p d s zips st).stats ∧
      ∀ x ∈ snapshotsOf (processZips p d s zips st).events, statsInv x := by
  induction zips with
  | nil =>
    intro s st hz hinv
    exact ⟨rfl, rfl, Nat.le_add_right _ _, hinv,
      chainFrom_nil (statsLe_refl st),
      by intro x hx; simp [processZips, snapshotsOf] at hx⟩
  | cons z rest ih =>
    intro s st hz hinv
    simp only [List.length_cons] at hz
    have hinv1 := hinv.1
    have hinv2 := hinv.2
    have hzi : incr st.zip_files_checked = st.zip_files_checked + 1 :=
      incr_of_lt (by omega)
    simp only [processZips]
    rcases hc : p.extract_zip_entry_if_exists s (d, z) MODEL_INFO_FILE_NAME d
      with ⟨res, s'⟩
    cases res with
    | error e =>
      dsimp only
      rw [hzi]
      exact ⟨rfl, rfl,
        show st.zip_files_checked + 1 ≤
          st.zip_files_checked + (z :: rest).length by simp only [List.length_cons]; omega,
        ⟨show st.extracted ≤ st.zip_files_checked + 1 by omega, hinv2⟩,
        chainFrom_nil ⟨le_refl _, le_refl _, Nat.le_succ _, le_refl _⟩,
        by intro x hx; simp [snapshotsOf] at hx⟩
    | ok outcome =>
      cases outcome with
      | extracted =>
        dsimp only
        have hext : incr st.extracted = st.extracted + 1 :=
          incr_of_lt (by omega)
        rw [hzi, hext]
        obtain ⟨h1, h2, h3, h4, h5, h6⟩ := ih s'
          { st with
            zip_files_checked := st.zip_files_checked + 1,
            extracted := st.extracted + 1 }
          (show st.zip_files_checked + 1 + rest.length < U64LIMIT by omega)
          ⟨show st.extracted + 1 ≤ st.zip_files_checked + 1 by omega, hinv2⟩
        have hle : statsLe st
            { st with
              zip_files_checked := st.zip_files_checked + 1,
              extracted := st.extracted + 1 } :=
          ⟨le_refl _, le_refl _, Nat.le_succ _, Nat.le_succ _⟩
        refine ⟨h1, h2,
          h3.trans (show st.zip_files_checked + 1 + rest.length ≤
            st.zip_files_checked + (z :: rest).length by simp only [List.length_cons]; omega), h4,
          chainFrom_cons_update hle h5, ?_⟩
        intro x hx
        simp only [snapshotsOf, List.mem_cons] at hx
        rcases hx with hx | hx
        · subst hx
          exact ⟨show st.extracted + 1 ≤ st.zip_files_checked + 1 by omega,
            hinv2⟩
        · exact h6 x hx
      | notFound =>
        dsimp only
        rw [hzi]
        obtain ⟨h1, h2, h3, h4, h5, h6⟩ := ih s'
          { st with zip_files_checked := st.zip_files_checked + 1 }
          (show st.zip_files_checked + 1 + rest.length < U64LIMIT by omega)
          ⟨show st.extracted ≤ st.zip_files_checked + 1 by omega, hinv2⟩
        have hle : statsLe st
            { st with zip_files_checked := st.zip_files_checked + 1 } :=
          ⟨le_refl _, le_refl _, Nat.le_succ _, le_refl _⟩
        refine ⟨h1, h2,
          h3.trans (show st.zip_files_checked + 1 + rest.length ≤
            st.zip_files_checked + (z :: rest).length by simp only [List.length_cons]; omega), h4,
          chainFrom_cons_update hle h5, ?_⟩
        intro x hx
        simp only [snapshotsOf, List.mem_cons] at hx
        rcases hx with hx | hx
        · subst hx
          exact ⟨show st.extracted ≤ st.zip_files_checked + 1 by omega, hinv2⟩
        · exact h6 x hx
      | invalidZip rr =>
        dsimp only
        rw [hzi]
        obtain ⟨h1, h2, h3, h4, h5, h6⟩ := ih s'
          { st with zip_files_checked := st.zip_files_checked + 1 }
          (show st.zip_files_checked + 1 + rest.length < U64LIMIT by omega)
          ⟨show st.extracted ≤ st.zip_files_checked + 1 by omega, hinv2⟩
        have hle : statsLe st
            { st with zip_files_checked := st.zip_files_checked + 1 } :=
          ⟨le_refl _, le_refl _, Nat.le_succ _, le_refl _⟩
        refine ⟨h1, h2,
          h3.trans (show st.zip_files_checked + 1 + rest.length ≤
            st.zip_files_checked + (z :: rest).length by simp only [List.length_cons]; omega), h4,
          chainFrom_cons_invalid (chainFrom_cons_update hle h5), ?_⟩
        intro x hx
        simp only [snapshotsOf, List.mem_cons] at hx
        rcases hx with hx | hx
        · subst hx
          exact ⟨show st.extracted ≤ st.zip_files_checked + 1 by omega, hinv2⟩
        · exact h6 x hx

/-- Per-lane invariants: a lane raises `directories_scanned` by exactly
one, `safetensors_directories` by at most one, `zip_files_checked` by at
most the listing bound `B`, preserves the cross-field invariants, and
reports a monotone chain of invariant-satisfying snapshots. -/
theorem processLane_mono {σ : Type} (p : FilePorts σ) (B : Nat)
    (hB : ∀ (s' : σ) (d' : String) fs,
      p.list_files_in_dir s' d' = .ok fs → fs.length ≤ B)
    (s : σ) (d : String) (st : ExtractStats)
    (hd : st.directories_scanned + 1 < U64LIMIT)
    (hz : st.zip_files_checked + B < U64LIMIT)
    (hinv : statsInv st) :
    (processLane p s d st).stats.directories_scanned =
        st.directories_scanned + 1 ∧
      st.safetensors_directories ≤
        (processLane p s d st).stats.safetensors_directories ∧
      (processLane p s d st).stats.safetensors_directories ≤
        st.safetensors_directories + 1 ∧
      (processLane p s d st).stats.zip_files_checked ≤
        st.zip_files_checked + B ∧
      statsInv (processLane p s d st).stats ∧
      ChainFrom st (processLane p s d st).events
        (processLane p s d st).stats ∧
      ∀ x ∈ snapshotsOf (processLane p s d st).events, statsInv x := by
  have hinv1 := hinv.1
  have hinv2 := hinv.2
  have hdi : incr st.directories_scanned = st.directories_scanned + 1 :=
    incr_of_lt hd
  simp only [processLane]
  rcases hl : p.list_files_in_dir s d with e | files
  · dsimp only
    rw [hdi]
    exact ⟨rfl, le_refl _, Nat.le_succ _,
      show st.zip_files_checked ≤ st.zip_files_checked + B by omega,
      ⟨hinv1,
        show st.safetensors_directories ≤ st.directories_scanned + 1
          by omega⟩,
      chainFrom_nil ⟨Nat.le_succ _, le_refl _, le_refl _, le_refl _⟩,
      by intro x hx; simp [snapshotsOf] at hx⟩
  · dsimp only
    rw [hdi]
    have hsi : incr st.safetensors_directories =
        st.safetensors_directories + 1 := incr_of_lt (by omega)
    by_cases hcl : (classify files).1 = true
    · rw [if_pos hcl, hsi]
      have hzlen : (classify files).2.length ≤ B :=
        (classify_snd_length_le files).trans (hB s d files hl)
      obtain ⟨h1, h2, h3, h4, h5, h6⟩ :=
        processZips_mono p d (classify files).2 s
          { st with
            directories_scanned := st.directories_scanned + 1,
            safetensors_directories := st.safetensors_directories + 1 }
          (show st.zip_files_checked + (classify files).2.length < U64LIMIT
            by omega)
          ⟨show st.extracted ≤ st.zip_files_checked by omega,
            show st.safetensors_directories + 1 ≤ st.directories_scanned + 1
              by omega⟩
      refine ⟨by rw [h1], by rw [h2]; exact Nat.le_succ _, by rw [h2],
        h3.trans (show st.zip_files_checked + (classify files).2.length ≤
          st.zip_files_checked + B by omega), h4,
        chainFrom_cons_update
          ⟨Nat.le_succ _, Nat.le_succ _, le_refl _, le_refl _⟩ h5, ?_⟩
      intro x hx
      simp only [snapshotsOf, List.mem_cons] at hx
      rcases hx with hx | hx
      · subst hx
        exact ⟨show st.extracted ≤ st.zip_files_checked by omega,
          show st.safetensors_directories + 1 ≤ st.directories_scanned + 1
            by omega⟩
      · exact h6 x hx
    · rw [if_neg hcl]
      refine ⟨rfl, le_refl _, Nat.le_succ _,
        show st.zip_files_checked ≤ st.zip_files_checked + B by omega,
        ⟨hinv1,
          show st.safetensors_directories ≤ st.directories_scanned + 1
            by omega⟩,
        chainFrom_update ⟨Nat.le_succ _, le_refl _, le_refl _, le_refl _⟩,
        ?_⟩
      intro x hx
      simp only [snapshotsOf, List.mem_cons, List.not_mem_nil, or_false]
        at hx
      subst hx
      exact ⟨hinv1,
        show st.safetensors_directories ≤ st.directories_scanned + 1
          by omega⟩

/-- Whole-fan-out invariants: under a per-listing length bound `B` and
capacity for the directory count and total archive count, the fold over
the lanes keeps every snapshot invariant-satisfying and monotone. -/
theorem processLanes_mono {σ : Type} (p : FilePorts σ) (B : Nat)
    (hB : ∀ (s' : σ) (d' : String) fs,
      p.list_files_in_dir s' d' = .ok fs → fs.length ≤ B)
    (dirs : List String) : ∀ (s : σ) (st : ExtractStats),
    st.directories_scanned + dirs.length < U64LIMIT →
    st.zip_files_checked + dirs.length * B < U64LIMIT →
    statsInv st →
    (processLanes p s dirs st).stats.directories_scanned ≤
        st.directories_scanned + dirs.length ∧
      (processLanes p s dirs st).stats.zip_files_checked ≤
        st.zip_files_checked + dirs.length * B ∧
      statsInv (processLanes p s dirs st).stats ∧
      ChainFrom st (processLanes p s dirs st).events
        (processLanes p s dirs st).stats ∧
      ∀ x ∈ snapshotsOf (processLanes p s dirs st).events, statsInv x := by
  induction dirs with
  | nil =>
    intro s st hd hz hinv
    exact ⟨Nat.le_add_right _ _, Nat.le_add_right _ _, hinv,
      chainFrom_nil (statsLe_refl st),
      by intro x hx; simp [processLanes, snapshotsOf] at hx⟩
  | cons d rest ih =>
    intro s st hd hz hinv
    simp only [List.length_cons, Nat.succ_mul] at hd hz ⊢
    obtain ⟨l1, l2, l3, l4, l5, l6, l7⟩ :=
      processLane_mono p B hB s d st (by omega) (by omega) hinv
    simp only [processLanes]
    cases hf : (processLane p s d st).fault with
    | some e =>
      dsimp only
      refine ⟨by omega, by omega, l5, l6, l7⟩
    | none =>
      dsimp only
      obtain ⟨m1, m2, m3, m4, m5⟩ :=
        ih (processLane p s d st).state (processLane p s d st).stats
          (by omega) (by omega) l5
      refine ⟨by omega, by omega, m3,
        chainFrom_comp (processLane p s d st).events
          (processLanes p (processLane p s d st).state rest
            (processLane p s d st).stats).events l6 m4, ?_⟩
      intro x hx
      rw [snapshotsOf_append, List.mem_append] at hx
      rcases hx with hx | hx
      · exact l7 x hx
      · exact m5 x hx

/-- Starting notifications carry no snapshot. -/
theorem snapshotsOf_start (root : String) (evs : List Event) :
    snapshotsOf (Event.start root :: evs) = snapshotsOf evs := rfl

/-- C1: in every run whose port listings are bounded by `B` files and
whose enumeration is bounded by `D` directories, with capacity
`D + D * B` below the `u64` wrap bound, every snapshot handed to
`on_update` (including the ones adjacent to `on_invalid_zip`) and to
`on_finish`, and the returned final snapshot, satisfy
`zip_files_checked ≥ extracted` and
`safetensors_directories ≤ directories_scanned`, and the sequence of
observed snapshots is componentwise non-decreasing from the zeroed
statistics. -/
theorem c1_snapshot_invariants_and_monotonicity {σ : Type}
    (p : FilePorts σ) (s : σ) (root : String) (B D : Nat)
    (hB : ∀ (s' : σ) (d : String) fs,
      p.list_files_in_dir s' d = .ok fs → fs.length ≤ B)
    (hD : ∀ ds, p.for_each_directory s = .ok ds → ds.length ≤ D)
    (hcap : D + D * B < U64LIMIT) :
    (∀ x ∈ snapshotsOf (extract_model_info p s root).1, statsInv x) ∧
      List.Chain' statsLe
        (zeroStats :: snapshotsOf (extract_model_info p s root).1) ∧
      ∀ st, (extract_model_info p s root).2.2 = .ok st → statsInv st := by
  simp only [extract_model_info]
  cases he : p.for_each_directory s with
  | error e =>
    dsimp only
    exact ⟨by intro x hx; simp [snapshotsOf] at hx,
      List.chain'_singleton zeroStats, by intro st h; cases h⟩
  | ok dirs =>
    dsimp only
    have hlen : dirs.length ≤ D := hD dirs he
    have hmul : dirs.length * B ≤ D * B := Nat.mul_le_mul_right B hlen
    obtain ⟨m1, m2, m3, m4, m5⟩ :=
      processLanes_mono p B hB dirs s zeroStats
        (show 0 + dirs.length < U64LIMIT by omega)
        (show 0 + dirs.length * B < U64LIMIT by omega)
        ⟨le_refl 0, le_refl 0⟩
    cases hf : (processLanes p s dirs zeroStats).fault with
    | some e =>
      dsimp only
      exact ⟨fun x hx => m5 x hx, m4.1, by intro st h; cases h⟩
    | none =>
      dsimp only
      have hfin : snapshotsOf
          [Event.finish (processLanes p s dirs zeroStats).stats] =
          [(processLanes p s dirs zeroStats).stats] := rfl
      refine ⟨?_, ?_, ?_⟩
      · intro x hx
        rw [snapshotsOf_append, snapshotsOf_start, hfin, List.mem_append]
          at hx
        rcases hx with hx | hx
        · exact m5 x hx
        · simp only [List.mem_singleton] at hx
          subst hx
          exact m3
      · rw [snapshotsOf_append, snapshotsOf_start, hfin, ← List.cons_append,
          List.chain'_append]
        refine ⟨m4.1, List.chain'_singleton _, ?_⟩
        intro x hx y hy
        simp only [List.head?_cons, Option.mem_def, Option.some.injEq] at hy
        rw [← hy]
        exact m4.2.2 x hx
      · intro st h
        injection h with h
        rw [← h]
        exact m3

/-- Witness for C1 on concrete one-directory ports with empty listings. -/
theorem c1_snapshot_invariants_and_monotonicity_witness :
    (∀ x ∈ snapshotsOf (extract_model_info
        (okPorts ["r"] (fun _ => []) (fun _ _ _ => ZipEntryOutcome.notFound))
        () "r").1, statsInv x) ∧
      List.Chain' statsLe (zeroStats :: snapshotsOf (extract_model_info
        (okPorts ["r"] (fun _ => []) (fun _ _ _ => ZipEntryOutcome.notFound))
        () "r").1) ∧
      ∀ st, (extract_model_info
        (okPorts ["r"] (fun _ => []) (fun _ _ _ => ZipEntryOutcome.notFound))
        () "r").2.2 = .ok st → statsInv st :=
  c1_snapshot_invariants_and_monotonicity
    (okPorts ["r"] (fun _ => []) (fun _ _ _ => ZipEntryOutcome.notFound))
    () "r" 0 1
    (fun s' d fs h => by injection h with h; rw [← h]; exact le_refl 0)
    (fun ds h => by injection h with h; rw [← h]; exact le_refl 1)
    (by decide)

/-- The per-archive loop never notifies `on_finish`. -/
theorem processZips_no_finish {σ : Type} (p : FilePorts σ) (d : String)
    (zips : List String) : ∀ (s : σ) (st : ExtractStats),
    ∀ e ∈ (processZips p d s zips st).events, e.isFin = false := by
  induction zips with
  | nil => intro s st e he; simp [processZips] at he
  | cons z rest ih =>
    intro s st e he
    simp only [processZips] at he
    rcases hc : p.extract_zip_entry_if_exists s (d, z) MODEL_INFO_FILE_NAME d
      with ⟨res, s'⟩
    rw [hc] at he
    cases res with
    | error e' => simp at he
    | ok outcome =>
      cases outcome with
      | extracted =>
        dsimp only at he
        rcases List.mem_cons.mp he with he | he
        · subst he; rfl
        · exact ih s' _ e he
      | notFound =>
        dsimp only at he
        rcases List.mem_cons.mp he with he | he
        · subst he; rfl
        · exact ih s' _ e he
      | invalidZip rr =>
        dsimp only at he
        rcases List.mem_cons.mp he with he | he
        · subst he; rfl
        rcases List.mem_cons.mp he with he | he
        · subst he; rfl
        · exact ih s' _ e he

/-- A directory lane never notifies `on_finish`. -/
theorem processLane_no_finish {σ : Type} (p : FilePorts σ) (s : σ)
    (d : String) (st : ExtractStats) :
    ∀ e ∈ (processLane p s d st).events, e.isFin = false := by
  intro e he
  simp only [processLane] at he
  rcases hl : p.list_files_in_dir s d with e' | files
  · rw [hl] at he; simp at he
  · rw [hl] at he
    dsimp only at he
    by_cases hcl : (classify files).1 = true
    · rw [if_pos hcl] at he
      rcases List.mem_cons.mp he with he | he
      · subst he; rfl
      · exact processZips_no_finish p d (classify files).2 s _ e he
    · rw [if_neg hcl] at he
      rcases List.mem_cons.mp he with he | he
      · subst he; rfl
      · simp at he

/-- The lane fan-out never notifies `on_finish`. -/
theorem processLanes_no_finish {σ : Type} (p : FilePorts σ)
    (dirs : List String) : ∀ (s : σ) (st : ExtractStats),
    ∀ e ∈ (processLanes p s dirs st).events, e.isFin = false := by
  induction dirs with
  | nil => intro s st e he; simp [processLanes] at he
  | cons d rest ih =>
    intro s st e he
    simp only [processLanes] at he
    cases hf : (processLane p s d st).fault with
    | some e' =>
      rw [hf] at he
      exact processLane_no_finish p s d st e he
    | none =>
      rw [hf] at he
      dsimp only at he
      rcases List.mem_append.mp he with he | he
      · exact processLane_no_finish p s d st e he
      · exact ih _ _ e he

/-- A lane whose listing fails propagates that fault. -/
theorem processLane_fault_of_listing_error (pp : PurePorts) (d : String)
    (st : ExtractStats) {e : ExtractError} (hl : pp.listing d = .error e) :
    (processLane pp.toPorts () d st).fault = some e := by
  simp only [processLane, PurePorts.toPorts]
  rw [hl]

/-- If some enumerated directory's listing fails, the fan-out ends in a
fault. -/
theorem processLanes_fault_of_listing_error (pp : PurePorts)
    (dirs : List String) : ∀ (st : ExtractStats) (d : String)
    (e : ExtractError), d ∈ dirs → pp.listing d = .error e →
    (processLanes pp.toPorts () dirs st).fault ≠ none := by
  induction dirs with
  | nil => intro st d e hd; simp at hd
  | cons d0 rest ih =>
    intro st d e hd hl
    simp only [processLanes]
    cases hf : (processLane pp.toPorts () d0 st).fault with
    | some e' => simp
    | none =>
      dsimp only
      rcases List.mem_cons.mp hd with hd | hd
      · subst hd
        rw [processLane_fault_of_listing_error pp d st hl] at hf
        cases hf
      · exact ih _ d e hd hl

/-- C3: an enumeration fault or any enumerated directory's listing fault
makes `extract_model_info` return `Err` (no partial snapshot, and
`on_finish` is never notified); conversely an `Ok` run notifies
`on_finish` exactly once, as its very last notification, with the snapshot
it returns. -/
theorem c3_fault_propagation_and_finish (pp : PurePorts) (root : String) :
    (∀ e, pp.dirs = .error e →
      extract_model_info pp.toPorts () root =
        ([Event.start root], (), .error e)) ∧
      (∀ dirs d e, pp.dirs = .ok dirs → d ∈ dirs →
        pp.listing d = .error e →
        ∃ e', (extract_model_info pp.toPorts () root).2.2 = .error e') ∧
      ((extract_model_info pp.toPorts () root).1.filter Event.isFin =
        match (extract_model_info pp.toPorts () root).2.2 with
        | .ok st => [Event.finish st]
        | .error _ => []) ∧
      ∀ st, (extract_model_info pp.toPorts () root).2.2 = .ok st →
        (extract_model_info pp.toPorts () root).1.getLast? =
          some (Event.finish st) := by
  refine ⟨?_, ?_, ?_, ?_⟩
  · intro e he
    simp [extract_model_info, PurePorts.toPorts, he]
  · intro dirs d e hdirs hd hl
    have he : pp.toPorts.for_each_directory () = .ok dirs := hdirs
    simp only [extract_model_info]
    rw [he]
    dsimp only
    cases hf : (processLanes pp.toPorts () dirs zeroStats).fault with
    | some e' => exact ⟨e', rfl⟩
    | none =>
      exact absurd hf (processLanes_fault_of_listing_error pp dirs
        zeroStats d e hd hl)
  · simp only [extract_model_info]
    cases he : pp.toPorts.for_each_directory () with
    | error e => dsimp only; rfl
    | ok dirs =>
      dsimp only
      cases hf : (processLanes pp.toPorts () dirs zeroStats).fault with
      | some e =>
        dsimp only
        rw [List.filter_eq_nil_iff]
        intro a ha
        rcases List.mem_cons.mp ha with ha | ha
        · subst ha; simp [Event.isFin]
        · simp [processLanes_no_finish pp.toPorts dirs () zeroStats a ha]
      | none =>
        dsimp only
        rw [List.filter_append, List.filter_eq_nil_iff.mpr, List.nil_append]
        · rfl
        · intro a ha
          rcases List.mem_cons.mp ha with ha | ha
          · subst ha; simp [Event.isFin]
          · simp [processLanes_no_finish pp.toPorts dirs () zeroStats a ha]
  · intro st h
    simp only [extract_model_info] at h ⊢
    cases he : pp.toPorts.for_each_directory () with
    | error e =>
      rw [he] at h
      dsimp only at h
      cases h
    | ok dirs =>
      rw [he] at h
      dsimp only at h
      cases hf : (processLanes pp.toPorts () dirs zeroStats).fault with
      | some e =>
        rw [hf] at h
        dsimp only at h
        cases h
      | none =>
        rw [hf] at h
        dsimp only at h
        injection h with h
        dsimp only
        rw [hf]
        dsimp only
        rw [← h, List.getLast?_concat]

/-- Witness for C3 on concrete one-directory, no-fault ports. -/
theorem c3_fault_propagation_and_finish_witness :
    (∀ e, (PurePorts.mk (.ok ["r"]) (fun _ => .ok [])
        (fun _ _ _ => .ok .notFound)).dirs = .error e →
      extract_model_info (PurePorts.mk (.ok ["r"]) (fun _ => .ok [])
        (fun _ _ _ => .ok .notFound)).toPorts () "r" =
        ([Event.start "r"], (), .error e)) ∧
      (∀ dirs d e, (PurePorts.mk (.ok ["r"]) (fun _ => .ok [])
          (fun _ _ _ => .ok .notFound)).dirs = .ok dirs → d ∈ dirs →
        (PurePorts.mk (.ok ["r"]) (fun _ => .ok [])
          (fun _ _ _ => .ok .notFound)).listing d = .error e →
        ∃ e', (extract_model_info (PurePorts.mk (.ok ["r"])
          (fun _ => .ok []) (fun _ _ _ => .ok .notFound)).toPorts ()
          "r").2.2 = .error e') ∧
      ((extract_model_info (PurePorts.mk (.ok ["r"]) (fun _ => .ok [])
          (fun _ _ _ => .ok .notFound)).toPorts () "r").1.filter
          Event.isFin =
        match (extract_model_info (PurePorts.mk (.ok ["r"])
            (fun _ => .ok []) (fun _ _ _ => .ok .notFound)).toPorts ()
            "r").2.2 with
        | .ok st => [Event.finish st]
        | .error _ => []) ∧
      ∀ st, (extract_model_info (PurePorts.mk (.ok ["r"])
          (fun _ => .ok []) (fun _ _ _ => .ok .notFound)).toPorts ()
          "r").2.2 = .ok st →
        (extract_model_info (PurePorts.mk (.ok ["r"]) (fun _ => .ok [])
          (fun _ _ _ => .ok .notFound)).toPorts () "r").1.getLast? =
          some (Event.finish st) :=
  c3_fault_propagation_and_finish
    (PurePorts.mk (.ok ["r"]) (fun _ => .ok []) (fun _ _ _ => .ok .notFound))
    "r"

/-- Structural facts about the archive loop over fixed-behaviour ports:
it never faults, leaves the directory counters alone, notifies `on_update`
once per archive, and notifies `on_invalid_zip` exactly for the archives
whose outcome is `InvalidZip`, in archive order. -/
theorem processZips_okPorts_basic (dirsL : List String)
    (L : String → List String)
    (O : String × String → String → String → ZipEntryOutcome)
    (d : String) (zips : List String) : ∀ st : ExtractStats,
    (processZips (okPorts dirsL L O) d () zips st).fault = none ∧
      (processZips (okPorts dirsL L O) d () zips st).stats.directories_scanned
        = st.directories_scanned ∧
      (processZips (okPorts dirsL L O) d () zips
        st).stats.safetensors_directories = st.safetensors_directories ∧
      ((processZips (okPorts dirsL L O) d () zips st).events.filter
        Event.isUpdate).length = zips.length ∧
      (processZips (okPorts dirsL L O) d () zips st).events.filter
          Event.isInvalid =
        zips.filterMap (fun z =>
          match outcomeOf O d z with
          | .invalidZip rr => some (Event.invalidZip d z rr)
          | _ => none) := by
  induction zips with
  | nil => intro st; simp [processZips]
  | cons z rest ih =>
    intro st
    have hcall : (okPorts dirsL L O).extract_zip_entry_if_exists ()
        (d, z) MODEL_INFO_FILE_NAME d =
        (.ok (O (d, z) MODEL_INFO_FILE_NAME d), ()) := rfl
    simp only [processZips, hcall]
    cases ho : O (d, z) MODEL_INFO_FILE_NAME d with
    | extracted =>
      dsimp only
      obtain ⟨h1, h2, h3, h4, h5⟩ := ih
        { st with
          zip_files_checked := incr st.zip_files_checked,
          extracted := incr st.extracted }
      refine ⟨h1, h2, h3, ?_, ?_⟩
      · simp [List.filter_cons, Event.isUpdate, h4]
      · simp only [List.filter_cons, List.filterMap_cons, outcomeOf, ho]
        simpa [Event.isInvalid] using h5
    | notFound =>
      dsimp only
      obtain ⟨h1, h2, h3, h4, h5⟩ := ih
        { st with zip_files_checked := incr st.zip_files_checked }
      refine ⟨h1, h2, h3, ?_, ?_⟩
      · simp [List.filter_cons, Event.isUpdate, h4]
      · simp only [List.filter_cons, List.filterMap_cons, outcomeOf, ho]
        simpa [Event.isInvalid] using h5
    | invalidZip rr =>
      dsimp only
      obtain ⟨h1, h2, h3, h4, h5⟩ := ih
        { st with zip_files_checked := incr st.zip_files_checked }
      refine ⟨h1, h2, h3, ?_, ?_⟩
      · simp [List.filter_cons, Event.isUpdate, Event.isInvalid, h4]
      · simp only [List.filter_cons, List.filterMap_cons, outcomeOf, ho]
        simpa [Event.isInvalid] using h5

/-- Counter values of the archive loop over fixed-behaviour ports: below
the wrap bound, `zip_files_checked` gains the number of archives and
`extracted` gains the number of `Extracted` outcomes, each wrapped as
`fetch_add` wraps. -/
theorem processZips_okPorts_mod (dirsL : List String)
    (L : String → List String)
    (O : String × String → String → String → ZipEntryOutcome)
    (d : String) (zips : List String) : ∀ st : ExtractStats,
    st.zip_files_checked < U64LIMIT → st.extracted < U64LIMIT →
    (processZips (okPorts dirsL L O) d () zips st).stats.zip_files_checked =
        (st.zip_files_checked + zips.length) % U64LIMIT ∧
      (processZips (okPorts dirsL L O) d () zips st).stats.extracted =
        (st.extracted +
          zips.countP (fun z => outcomeOf O d z == .extracted)) % U64LIMIT := by
  induction zips with
  | nil =>
    intro st hz he
    constructor
    · simp [processZips, Nat.mod_eq_of_lt hz]
    · simp [processZips, Nat.mod_eq_of_lt he]
  | cons z rest ih =>
    intro st hz he
    have hcall : (okPorts dirsL L O).extract_zip_entry_if_exists ()
        (d, z) MODEL_INFO_FILE_NAME d =
        (.ok (O (d, z) MODEL_INFO_FILE_NAME d), ()) := rfl
    simp only [processZips, hcall]
    cases ho : O (d, z) MODEL_INFO_FILE_NAME d with
    | extracted =>
      dsimp only
      obtain ⟨h1, h2⟩ := ih
        { st with
          zip_files_checked := incr st.zip_files_checked,
          extracted := incr st.extracted }
        (incr_lt _) (incr_lt _)
      constructor
      · rw [h1]
        show ((st.zip_files_checked + 1) % U64LIMIT + rest.length) %
          U64LIMIT = _
        rw [Nat.mod_add_mod]
        congr 1
        simp only [List.length_cons]
        omega
      · rw [h2]
        show ((st.extracted + 1) % U64LIMIT + _) % U64LIMIT = _
        rw [Nat.mod_add_mod]
        congr 1
        rw [List.countP_cons]
        simp only [outcomeOf, ho]
        simp
        omega
    | notFound =>
      dsimp only
      obtain ⟨h1, h2⟩ := ih
        { st with zip_files_checked := incr st.zip_files_checked }
        (incr_lt _) he
      constructor
      · rw [h1]
        show ((st.zip_files_checked + 1) % U64LIMIT + rest.length) %
          U64LIMIT = _
        rw [Nat.mod_add_mod]
        congr 1
        simp only [List.length_cons]
        omega
      · rw [h2]
        congr 1
        rw [List.countP_cons]
        simp only [outcomeOf, ho]
        simp
    | invalidZip rr =>
      dsimp only
      obtain ⟨h1, h2⟩ := ih
        { st with zip_files_checked := incr st.zip_files_checked }
        (incr_lt _) he
      constructor
      · rw [h1]
        show ((st.zip_files_checked + 1) % U64LIMIT + rest.length) %
          U64LIMIT = _
        rw [Nat.mod_add_mod]
        congr 1
        simp only [List.length_cons]
        omega
      · rw [h2]
        congr 1
        rw [List.countP_cons]
        simp only [outcomeOf, ho]
        simp

/-- C7: over fixed-behaviour ports, a directory lane never faults and
increments `directories_scanned` exactly once; a marker-bearing directory
with `N` candidate archives also increments `safetensors_directories` once
and notifies `on_update` exactly `N + 1` times (one update even when
`N = 0`); a directory without a marker (in particular an empty one) leaves
the other three counters unchanged and notifies `on_update` exactly
once. -/
theorem c7_lane_counting (dirsL : List String) (L : String → List String)
    (O : String × String → String → String → ZipEntryOutcome)
    (d : String) (st : ExtractStats) :
    (processLane (okPorts dirsL L O) () d st).fault = none ∧
      (processLane (okPorts dirsL L O) () d st).stats.directories_scanned =
        incr st.directories_scanned ∧
      (if (classify (L d)).1 = true then
        (processLane (okPorts dirsL L O) () d
            st).stats.safetensors_directories =
          incr st.safetensors_directories ∧
          ((processLane (okPorts dirsL L O) () d st).events.filter
            Event.isUpdate).length = (classify (L d)).2.length + 1
      else
        (processLane (okPorts dirsL L O) () d
            st).stats.safetensors_directories = st.safetensors_directories ∧
          (processLane (okPorts dirsL L O) () d st).stats.zip_files_checked =
            st.zip_files_checked ∧
          (processLane (okPorts dirsL L O) () d st).stats.extracted =
            st.extracted ∧
          ((processLane (okPorts dirsL L O) () d st).events.filter
            Event.isUpdate).length = 1) := by
  have hcall : (okPorts dirsL L O).list_files_in_dir () d = .ok (L d) := rfl
  simp only [processLane, hcall]
  by_cases hcl : (classify (L d)).1 = true
  · simp only [if_pos hcl]
    obtain ⟨h1, h2, h3, h4, h5⟩ :=
      processZips_okPorts_basic dirsL L O d (classify (L d)).2
        { st with
          directories_scanned := incr st.directories_scanned,
          safetensors_directories :=
            incr { st with
              directories_scanned :=
                incr st.directories_scanned }.safetensors_directories }
    exact ⟨h1, h2, h3, by simp [List.filter_cons, Event.isUpdate, h4]⟩
  · simp only [if_neg hcl]
    simp [Event.isUpdate]

/-- Full characterization of one lane over fixed-behaviour ports: no
fault, counters gain exactly their lane contributions (wrapped),bounds
are preserved, and the `on_invalid_zip` notifications are exactly the
lane's invalid archives in order. -/
theorem processLane_okPorts_char (dirsL : List String)
    (L : String → List String)
    (O : String × String → String → String → ZipEntryOutcome)
    (d : String) (st : ExtractStats) (hb : statsBounded st) :
    (processLane (okPorts dirsL L O) () d st).fault = none ∧
      (processLane (okPorts dirsL L O) () d st).stats.directories_scanned =
        (st.directories_scanned + 1) % U64LIMIT ∧
      (processLane (okPorts dirsL L O) () d
          st).stats.safetensors_directories =
        (st.safetensors_directories + laneSafeCount L d) % U64LIMIT ∧
      (processLane (okPorts dirsL L O) () d st).stats.zip_files_checked =
        (st.zip_files_checked + laneZipCount L d) % U64LIMIT ∧
      (processLane (okPorts dirsL L O) () d st).stats.extracted =
        (st.extracted + laneExtCount L O d) % U64LIMIT ∧
      statsBounded (processLane (okPorts dirsL L O) () d st).stats ∧
      (processLane (okPorts dirsL L O) () d st).events.filter
        Event.isInvalid = laneInvalid L O d := by
  obtain ⟨hb1, hb2, hb3, hb4⟩ := hb
  have hcall : (okPorts dirsL L O).list_files_in_dir () d = .ok (L d) := rfl
  simp only [processLane, hcall]
  by_cases hcl : (classify (L d)).1 = true
  · simp only [if_pos hcl]
    obtain ⟨b1, b2, b3, b4, b5⟩ :=
      processZips_okPorts_basic dirsL L O d (classify (L d)).2
        { st with
          directories_scanned := incr st.directories_scanned,
          safetensors_directories := incr st.safetensors_directories }
    obtain ⟨m1, m2⟩ :=
      processZips_okPorts_mod dirsL L O d (classify (L d)).2
        { st with
          directories_scanned := incr st.directories_scanned,
          safetensors_directories := incr st.safetensors_directories }
        hb3 hb4
    refine ⟨b1, b2, ?_, ?_, ?_, ?_, ?_⟩
    · simp only [laneSafeCount, if_pos hcl]
      exact b3
    · simp only [laneZipCount, if_pos hcl]
      exact m1
    · simp only [laneExtCount, if_pos hcl]
      exact m2
    · refine ⟨?_, ?_, ?_, ?_⟩
      · rw [b2]; exact incr_lt _
      · rw [b3]; exact incr_lt _
      · rw [m1]; exact Nat.mod_lt _ (by decide)
      · rw [m2]; exact Nat.mod_lt _ (by decide)
    · simp only [List.filter_cons]
      show (if Event.isInvalid (Event.update _) = true then _ else _) = _
      rw [if_neg (by simp [Event.isInvalid])]
      rw [b5]
      simp only [laneInvalid, if_pos hcl]
  · simp only [if_neg hcl]
    refine ⟨trivial, rfl, ?_, ?_, ?_, ⟨incr_lt _, hb2, hb3, hb4⟩, ?_⟩
    · simp only [laneSafeCount, if_neg hcl]
      rw [Nat.add_zero, Nat.mod_eq_of_lt hb2]
    · simp only [laneZipCount, if_neg hcl]
      rw [Nat.add_zero, Nat.mod_eq_of_lt hb3]
    · simp only [laneExtCount, if_neg hcl]
      rw [Nat.add_zero, Nat.mod_eq_of_lt hb4]
    · simp only [laneInvalid, if_neg hcl]
      simp [Event.isInvalid]

/-- Full characterization of the lane fan-out over fixed-behaviour ports:
no fault, each counter gains its summed per-lane contribution (wrapped),
and the `on_invalid_zip` notifications are the lanes' invalid archives in
lane order. -/
theorem processLanes_okPorts_char (dirsL : List String)
    (L : String → List String)
    (O : String × String → String → String → ZipEntryOutcome)
    (dirs : List String) : ∀ st : ExtractStats, statsBounded st →
    (processLanes (okPorts dirsL L O) () dirs st).fault = none ∧
      (processLanes (okPorts dirsL L O) () dirs
          st).stats.directories_scanned =
        (st.directories_scanned + dirs.length) % U64LIMIT ∧
      (processLanes (okPorts dirsL L O) () dirs
          st).stats.safetensors_directories =
        (st.safetensors_directories +
          (dirs.map (laneSafeCount L)).sum) % U64LIMIT ∧
      (processLanes (okPorts dirsL L O) () dirs st).stats.zip_files_checked =
        (st.zip_files_checked + (dirs.map (laneZipCount L)).sum) % U64LIMIT ∧
      (processLanes (okPorts dirsL L O) () dirs st).stats.extracted =
        (st.extracted + (dirs.map (laneExtCount L O)).sum) % U64LIMIT ∧
      statsBounded (processLanes (okPorts dirsL L O) () dirs st).stats ∧
      (processLanes (okPorts dirsL L O) () dirs st).events.filter
        Event.isInvalid = (dirs.map (laneInvalid L O)).flatten := by
  induction dirs with
  | nil =>
    intro st hb
    obtain ⟨hb1, hb2, hb3, hb4⟩ := hb
    refine ⟨rfl, ?_, ?_, ?_, ?_, ⟨hb1, hb2, hb3, hb4⟩, by simp [processLanes]⟩
    · simp [processLanes, Nat.mod_eq_of_lt hb1]
    · simp [processLanes, Nat.mod_eq_of_lt hb2]
    · simp [processLanes, Nat.mod_eq_of_lt hb3]
    · simp [processLanes, Nat.mod_eq_of_lt hb4]
  | cons d rest ih =>
    intro st hb
    obtain ⟨l1, l2, l3, l4, l5, l6, l7⟩ :=
      processLane_okPorts_char dirsL L O d st hb
    obtain ⟨m1, m2, m3, m4, m5, m6, m7⟩ :=
      ih (processLane (okPorts dirsL L O) () d st).stats l6
    simp only [processLanes, l1]
    refine ⟨m1, ?_, ?_, ?_, ?_, m6, ?_⟩
    · rw [m2, l2, Nat.mod_add_mod]
      congr 1
      simp only [List.length_cons]
      omega
    · rw [m3, l3, Nat.mod_add_mod]
      congr 1
      simp only [List.map_cons, List.sum_cons]
      omega
    · rw [m4, l4, Nat.mod_add_mod]
      congr 1
      simp only [List.map_cons, List.sum_cons]
      omega
    · rw [m5, l5, Nat.mod_add_mod]
      congr 1
      simp only [List.map_cons, List.sum_cons]
      omega
    · rw [List.filter_append, l7, m7]
      simp only [List.map_cons, List.flatten_cons]

/-- C2: over fixed-behaviour ports — whatever mix of `Extracted`,
`NotFound` and `InvalidZip` outcomes the archives produce — the run never
returns an error; the final snapshot counts every inspected archive in
`zip_files_checked` (so each `InvalidZip` archive was counted) while
`extracted` counts only the `Extracted` outcomes; and the
`on_invalid_zip` notifications are exactly one per inspected archive with
an `InvalidZip` outcome, in order, so invalid archives in one directory
never remove the contributions of the remaining archives or of sibling
directories from the totals. -/
theorem c2_invalid_archive_isolation (dirs : List String)
    (L : String → List String)
    (O : String × String → String → String → ZipEntryOutcome)
    (root : String) :
    (extract_model_info (okPorts dirs L O) () root).2.2 =
        .ok (runFinalStats dirs L O) ∧
      (extract_model_info (okPorts dirs L O) () root).1.filter
        Event.isInvalid = runInvalid dirs L O := by
  have he : (okPorts dirs L O).for_each_directory () = .ok dirs := rfl
  obtain ⟨f1, f2, f3, f4, f5, f6, f7⟩ :=
    processLanes_okPorts_char dirs L O dirs zeroStats
      ⟨by decide, by decide, by decide, by decide⟩
  simp only [extract_model_info, he, f1]
  constructor
  · have heta : (processLanes (okPorts dirs L O) () dirs zeroStats).stats =
        ⟨(processLanes (okPorts dirs L O) () dirs
            zeroStats).stats.directories_scanned,
          (processLanes (okPorts dirs L O) () dirs
            zeroStats).stats.safetensors_directories,
          (processLanes (okPorts dirs L O) () dirs
            zeroStats).stats.zip_files_checked,
          (processLanes (okPorts dirs L O) () dirs
            zeroStats).stats.extracted⟩ := rfl
    show Except.ok (processLanes (okPorts dirs L O) () dirs zeroStats).stats
      = _
    rw [heta, f2, f3, f4, f5]
    simp [runFinalStats, zeroStats]
  · show List.filter Event.isInvalid
      (Event.start root ::
        (processLanes (okPorts dirs L O) () dirs zeroStats).events ++
        [Event.finish
          (processLanes (okPorts dirs L O) () dirs zeroStats).stats]) = _
    have hstart : List.filter Event.isInvalid (Event.start root ::
        (processLanes (okPorts dirs L O) () dirs zeroStats).events) =
        List.filter Event.isInvalid
          (processLanes (okPorts dirs L O) () dirs zeroStats).events := by
      simp [Event.isInvalid]
    rw [List.filter_append, hstart, f7]
    simp [Event.isInvalid, runInvalid]

/-- Unfolding one step of a schedule. -/
theorem applyCEvents_cons (s : ExtractStats) (e : CEvent) (l : List CEvent) :
    applyCEvents s (e :: l) = applyCEvents (applyCEvent s e) l := rfl

/-- Folding a schedule of atomic increments adds, per field, the number of
that field's events, wrapped — independently of the order of events. -/
theorem applyCEvents_fields (l : List CEvent) : ∀ s : ExtractStats,
    statsBounded s →
    (applyCEvents s l).directories_scanned =
        (s.directories_scanned + l.count CEvent.cDir) % U64LIMIT ∧
      (applyCEvents s l).safetensors_directories =
        (s.safetensors_directories + l.count CEvent.cSafe) % U64LIMIT ∧
      (applyCEvents s l).zip_files_checked =
        (s.zip_files_checked + l.count CEvent.cZip) % U64LIMIT ∧
      (applyCEvents s l).extracted =
        (s.extracted + l.count CEvent.cExt) % U64LIMIT := by
  induction l with
  | nil =>
    intro s hb
    obtain ⟨h1, h2, h3, h4⟩ := hb
    exact ⟨by simp [applyCEvents, Nat.mod_eq_of_lt h1],
      by simp [applyCEvents, Nat.mod_eq_of_lt h2],
      by simp [applyCEvents, Nat.mod_eq_of_lt h3],
      by simp [applyCEvents, Nat.mod_eq_of_lt h4]⟩
  | cons e l ih =>
    intro s hb
    obtain ⟨h1, h2, h3, h4⟩ := hb
    rw [applyCEvents_cons]
    cases e with
    | cDir =>
      obtain ⟨i1, i2, i3, i4⟩ := ih
        { s with directories_scanned := incr s.directories_scanned }
        ⟨incr_lt _, h2, h3, h4⟩
      refine ⟨?_, ?_, ?_, ?_⟩
      · rw [show applyCEvent s CEvent.cDir =
          { s with directories_scanned := incr s.directories_scanned }
          from rfl, i1]
        show ((s.directories_scanned + 1) % U64LIMIT + _) % U64LIMIT = _
        rw [Nat.mod_add_mod]
        congr 1
        simp [List.count_cons]
        omega
      · rw [show applyCEvent s CEvent.cDir =
          { s with directories_scanned := incr s.directories_scanned }
          from rfl, i2]
        simp [List.count_cons]
      · rw [show applyCEvent s CEvent.cDir =
          { s with directories_scanned := incr s.directories_scanned }
          from rfl, i3]
        simp [List.count_cons]
      · rw [show applyCEvent s CEvent.cDir =
          { s with directories_scanned := incr s.directories_scanned }
          from rfl, i4]
        simp [List.count_cons]
    | cSafe =>
      obtain ⟨i1, i2, i3, i4⟩ := ih
        { s with
          safetensors_directories := incr s.safetensors_directories }
        ⟨h1, incr_lt _, h3, h4⟩
      refine ⟨?_, ?_, ?_, ?_⟩
      · rw [show applyCEvent s CEvent.cSafe =
          { s with safetensors_directories := incr s.safetensors_directories }
          from rfl, i1]
        simp [List.count_cons]
      · rw [show applyCEvent s CEvent.cSafe =
          { s with safetensors_directories := incr s.safetensors_directories }
          from rfl, i2]
        show ((s.safetensors_directories + 1) % U64LIMIT + _) % U64LIMIT = _
        rw [Nat.mod_add_mod]
        congr 1
        simp [List.count_cons]
        omega
      · rw [show applyCEvent s CEvent.cSafe =
          { s with safetensors_directories := incr s.safetensors_directories }
          from rfl, i3]
        simp [List.count_cons]
      · rw [show applyCEvent s CEvent.cSafe =
          { s with safetensors_directories := incr s.safetensors_directories }
          from rfl, i4]
        simp [List.count_cons]
    | cZip =>
      obtain ⟨i1, i2, i3, i4⟩ := ih
        { s with zip_files_checked := incr s.zip_files_checked }
        ⟨h1, h2, incr_lt _, h4⟩
      refine ⟨?_, ?_, ?_, ?_⟩
      · rw [show applyCEvent s CEvent.cZip =
          { s with zip_files_checked := incr s.zip_files_checked }
          from rfl, i1]
        simp [List.count_cons]
      · rw [show applyCEvent s CEvent.cZip =
          { s with zip_files_checked := incr s.zip_files_checked }
          from rfl, i2]
        simp [List.count_cons]
      · rw [show applyCEvent s CEvent.cZip =
          { s with zip_files_checked := incr s.zip_files_checked }
          from rfl, i3]
        show ((s.zip_files_checked + 1) % U64LIMIT + _) % U64LIMIT = _
        rw [Nat.mod_add_mod]
        congr 1
        simp [List.count_cons]
        omega
      · rw [show applyCEvent s CEvent.cZip =
          { s with zip_files_checked := incr s.zip_files_checked }
          from rfl, i4]
        simp [List.count_cons]
    | cExt =>
      obtain ⟨i1, i2, i3, i4⟩ := ih
        { s with extracted := incr s.extracted } ⟨h1, h2, h3, incr_lt _⟩
      refine ⟨?_, ?_, ?_, ?_⟩
      · rw [show applyCEvent s CEvent.cExt =
          { s with extracted := incr s.extracted } from rfl, i1]
        simp [List.count_cons]
      · rw [show applyCEvent s CEvent.cExt =
          { s with extracted := incr s.extracted } from rfl, i2]
        simp [List.count_cons]
      · rw [show applyCEvent s CEvent.cExt =
          { s with extracted := incr s.extracted } from rfl, i3]
        simp [List.count_cons]
      · rw [show applyCEvent s CEvent.cExt =
          { s with extracted := incr s.extracted } from rfl, i4]
        show ((s.extracted + 1) % U64LIMIT + _) % U64LIMIT = _
        rw [Nat.mod_add_mod]
        congr 1
        simp [List.count_cons]
        omega

/-- Event counts of the archive part of one lane's schedule. -/
theorem zipCEvents_counts (O : String × String → String → String →
    ZipEntryOutcome) (d : String) (zs : List String) :
    ((zs.map (fun z => CEvent.cZip ::
        (if outcomeOf O d z == .extracted then [CEvent.cExt]
          else []))).flatten).count CEvent.cDir = 0 ∧
      ((zs.map (fun z => CEvent.cZip ::
        (if outcomeOf O d z == .extracted then [CEvent.cExt]
          else []))).flatten).count CEvent.cSafe = 0 ∧
      ((zs.map (fun z => CEvent.cZip ::
        (if outcomeOf O d z == .extracted then [CEvent.cExt]
          else []))).flatten).count CEvent.cZip = zs.length ∧
      ((zs.map (fun z => CEvent.cZip ::
        (if outcomeOf O d z == .extracted then [CEvent.cExt]
          else []))).flatten).count CEvent.cExt =
        zs.countP (fun z => outcomeOf O d z == .extracted) := by
  induction zs with
  | nil => simp
  | cons z zs ih =>
    obtain ⟨i1, i2, i3, i4⟩ := ih
    by_cases hz : (outcomeOf O d z == ZipEntryOutcome.extracted) = true
    · simp only [List.map_cons, List.flatten_cons, if_pos hz,
        List.count_append, List.count_cons, List.countP_cons, if_pos hz,
        i1, i2, i3, i4, List.length_cons]
      refine ⟨by simp, by simp, by simp +arith, by simp +arith⟩
    · simp only [List.map_cons, List.flatten_cons, if_neg hz,
        List.count_append, List.count_cons, List.countP_cons, if_neg hz,
        i1, i2, i3, i4, List.length_cons]
      refine ⟨by simp, by simp, by simp +arith, by simp +arith⟩

/-- Event counts of one lane's schedule equal the lane's counter
contributions. -/
theorem laneCEvents_counts (L : String → List String)
    (O : String × String → String → String → ZipEntryOutcome)
    (d : String) :
    (laneCEvents L O d).count CEvent.cDir = 1 ∧
      (laneCEvents L O d).count CEvent.cSafe = laneSafeCount L d ∧
      (laneCEvents L O d).count CEvent.cZip = laneZipCount L d ∧
      (laneCEvents L O d).count CEvent.cExt = laneExtCount L O d := by
  obtain ⟨z1, z2, z3, z4⟩ := zipCEvents_counts O d (classify (L d)).2
  by_cases hcl : (classify (L d)).1 = true
  · simp only [laneCEvents, if_pos hcl, laneSafeCount, laneZipCount,
      laneExtCount, List.count_cons, z1, z2, z3, z4]
    refine ⟨by simp, by simp, by simp, by simp⟩
  · simp only [laneCEvents, if_neg hcl, laneSafeCount, laneZipCount,
      laneExtCount, List.count_cons]
    refine ⟨by simp, by simp, by simp, by simp⟩

/-- Event counts of the whole run's schedule equal the summed lane
contributions. -/
theorem runCEvents_counts (L : String → List String)
    (O : String × String → String → String → ZipEntryOutcome)
    (dirs : List String) :
    (runCEvents dirs L O).count CEvent.cDir = dirs.length ∧
      (runCEvents dirs L O).count CEvent.cSafe =
        (dirs.map (laneSafeCount L)).sum ∧
      (runCEvents dirs L O).count CEvent.cZip =
        (dirs.map (laneZipCount L)).sum ∧
      (runCEvents dirs L O).count CEvent.cExt =
        (dirs.map (laneExtCount L O)).sum := by
  induction dirs with
  | nil => simp [runCEvents]
  | cons d rest ih =>
    obtain ⟨i1, i2, i3, i4⟩ := ih
    obtain ⟨l1, l2, l3, l4⟩ := laneCEvents_counts L O d
    simp only [runCEvents, List.map_cons, List.flatten_cons,
      List.count_append, List.length_cons, List.sum_cons] at i1 i2 i3 i4 ⊢
    rw [l1, l2, l3, l4, i1, i2, i3, i4]
    omega

/-- C9: the parallel fan-out refines the sequential fold — enumeration
completes (or fails the whole run with no lane processed) before fan-out,
and over any fixed behaviour of the file ports every schedule of the
lanes' atomic counter increments (any permutation of their concatenation,
covering every interleaving of the lanes) folds to exactly the final
snapshot of the sequential run. -/
theorem c9_parallel_refinement :
    (∀ (σ : Type) (p : FilePorts σ) (s : σ) (root : String)
      (e : ExtractError), p.for_each_directory s = .error e →
      extract_model_info p s root = ([Event.start root], s, .error e)) ∧
      ∀ (dirs : List String) (L : String → List String)
        (O : String × String → String → String → ZipEntryOutcome)
        (root : String) (st : ExtractStats) (l : List CEvent),
        (extract_model_info (okPorts dirs L O) () root).2.2 = .ok st →
        l.Perm (runCEvents dirs L O) →
        applyCEvents zeroStats l = st := by
  constructor
  · intro σ p s root e h
    simp [extract_model_info, h]
  · intro dirs L O root st l hres hperm
    have he : (okPorts dirs L O).for_each_directory () = .ok dirs := rfl
    obtain ⟨f1, f2, f3, f4, f5, f6, f7⟩ :=
      processLanes_okPorts_char dirs L O dirs zeroStats
        ⟨by decide, by decide, by decide, by decide⟩
    simp only [extract_model_info, he, f1] at hres
    injection hres with hres
    obtain ⟨a1, a2, a3, a4⟩ := applyCEvents_fields l zeroStats
      ⟨by decide, by decide, by decide, by decide⟩
    obtain ⟨c1, c2, c3, c4⟩ := runCEvents_counts L O dirs
    have heta : applyCEvents zeroStats l =
        ⟨(applyCEvents zeroStats l).directories_scanned,
          (applyCEvents zeroStats l).safetensors_directories,
          (applyCEvents zeroStats l).zip_files_checked,
          (applyCEvents zeroStats l).extracted⟩ := rfl
    have heta2 : (processLanes (okPorts dirs L O) () dirs zeroStats).stats =
        ⟨(processLanes (okPorts dirs L O) () dirs
            zeroStats).stats.directories_scanned,
          (processLanes (okPorts dirs L O) () dirs
            zeroStats).stats.safetensors_directories,
          (processLanes (okPorts dirs L O) () dirs
            zeroStats).stats.zip_files_checked,
          (processLanes (okPorts dirs L O) () dirs
            zeroStats).stats.extracted⟩ := rfl
    rw [← hres, heta, heta2, a1, a2, a3, a4, f2, f3, f4, f5,
      hperm.count_eq, hperm.count_eq, hperm.count_eq, hperm.count_eq,
      c1, c2, c3, c4]

/-- Witness for C9: a failing enumeration yields only the start
notification and the error, and a concrete one-lane schedule folds to the
sequential final snapshot. -/
theorem c9_parallel_refinement_witness :
    extract_model_info (PurePorts.mk (.error (ExtractError.message "walk"))
        (fun _ => .ok []) (fun _ _ _ => .ok .notFound)).toPorts () "r" =
      ([Event.start "r"], (), .error (ExtractError.message "walk")) ∧
    applyCEvents zeroStats [CEvent.cDir] = ⟨1, 0, 0, 0⟩ :=
  ⟨c9_parallel_refinement.1 Unit
    (PurePorts.mk (.error (ExtractError.message "walk")) (fun _ => .ok [])
      (fun _ _ _ => .ok .notFound)).toPorts () "r"
    (ExtractError.message "walk") rfl,
    c9_parallel_refinement.2 ["d"] (fun _ => [])
      (fun _ _ _ => ZipEntryOutcome.notFound) "r" ⟨1, 0, 0, 0⟩
      [CEvent.cDir] rfl (by decide)⟩

/-- The lookup loop always returns `Ok` (it never constructs the `Err`
variant). -/
theorem findEntryLoop_isOk (env : ZipEnv) (n od : String) :
    ∀ entries : List ZipIndexEntry,
    ∃ o, (findEntryLoop env n od entries).1 = .ok o := by
  intro entries
  induction entries with
  | nil => exact ⟨.notFound, rfl⟩
  | cons e rest ih =>
    cases e with
    | readErr msg => exact ⟨.invalidZip msg, rfl⟩
    | entry nm isdir cont =>
      simp only [findEntryLoop]
      by_cases hd : isdir = true
      · simp only [if_pos hd]
        exact ih
      · simp only [if_neg hd]
        by_cases hm : fileNameOf nm = some n
        · simp only [if_pos hm]
          cases hc : env.createResult with
          | error e => exact ⟨.invalidZip e, rfl⟩
          | ok u =>
            cases hcp : env.copyResult with
            | error e => exact ⟨.invalidZip e, rfl⟩
            | ok u' => exact ⟨.extracted, rfl⟩
        · simp only [if_neg hm]
          exact ih

/-- The lookup loop never reports `Extracted` when creating the output
file or copying the bytes fails. -/
theorem findEntryLoop_no_extract_on_fault (env : ZipEnv) (n od : String)
    (hf : env.createResult ≠ .ok () ∨ env.copyResult ≠ .ok ()) :
    ∀ entries : List ZipIndexEntry,
    (findEntryLoop env n od entries).1 ≠ .ok .extracted := by
  intro entries
  induction entries with
  | nil => intro h; cases h
  | cons e rest ih =>
    cases e with
    | readErr msg => intro h; cases h
    | entry nm isdir cont =>
      simp only [findEntryLoop]
      by_cases hd : isdir = true
      · simp only [if_pos hd]; exact ih
      · simp only [if_neg hd]
        by_cases hm : fileNameOf nm = some n
        · simp only [if_pos hm]
          cases hc : env.createResult with
          | error e => intro h; cases h
          | ok u =>
            cases hcp : env.copyResult with
            | error e => intro h; cases h
            | ok u' =>
              exfalso
              rcases hf with hf | hf
              · exact hf hc
              · exact hf hcp
        · simp only [if_neg hm]
          exact ih

/-- C4: the archive inspector is total over its fault cases — for every
oracle behaviour (nonexistent, empty, truncated or non-zip files appear
as open or parse failures) the result is `Ok`, never the `Err` variant;
an open failure and a parse failure are returned as
`Ok(InvalidZip(reason))`, and a create or copy failure never lets
`Extracted` escape (the matched entry reports `InvalidZip` instead). -/
theorem c4_inspector_never_errs (env : ZipEnv) (n od : String) :
    (∃ o, (FsPorts.extract_zip_entry_if_exists env n od).1 = .ok o) ∧
      (∀ e, env.openResult = .error e →
        (FsPorts.extract_zip_entry_if_exists env n od).1 =
          .ok (.invalidZip e)) ∧
      (∀ e, env.openResult = .ok () → env.parseResult = .error e →
        (FsPorts.extract_zip_entry_if_exists env n od).1 =
          .ok (.invalidZip e)) ∧
      ((env.createResult ≠ .ok () ∨ env.copyResult ≠ .ok ()) →
        (FsPorts.extract_zip_entry_if_exists env n od).1 ≠
          .ok .extracted) := by
  refine ⟨?_, ?_, ?_, ?_⟩
  · unfold FsPorts.extract_zip_entry_if_exists
    cases ho : env.openResult with
    | error e => exact ⟨.invalidZip e, rfl⟩
    | ok u =>
      cases hp : env.parseResult with
      | error e => exact ⟨.invalidZip e, rfl⟩
      | ok entries => exact findEntryLoop_isOk env n od entries
  · intro e he
    unfold FsPorts.extract_zip_entry_if_exists
    rw [he]
  · intro e ho hp
    unfold FsPorts.extract_zip_entry_if_exists
    rw [ho, hp]
  · intro hf
    unfold FsPorts.extract_zip_entry_if_exists
    cases ho : env.openResult with
    | error e => intro h; cases h
    | ok u =>
      cases hp : env.parseResult with
      | error e => intro h; cases h
      | ok entries => exact findEntryLoop_no_extract_on_fault env n od hf entries

/-- Witness for C4: an unopenable archive is reported as
`Ok(InvalidZip)`. -/
theorem c4_inspector_never_errs_witness :
    (∃ o, (FsPorts.extract_zip_entry_if_exists
        ⟨.error "io error", .error "io error", .ok (), .ok ()⟩
        MODEL_INFO_FILE_NAME "out").1 = .ok o) ∧
      (FsPorts.extract_zip_entry_if_exists
        ⟨.error "io error", .error "io error", .ok (), .ok ()⟩
        MODEL_INFO_FILE_NAME "out").1 =
        .ok (.invalidZip "io error") :=
  ⟨(c4_inspector_never_errs
      ⟨.error "io error", .error "io error", .ok (), .ok ()⟩
      MODEL_INFO_FILE_NAME "out").1,
    (c4_inspector_never_errs
      ⟨.error "io error", .error "io error", .ok (), .ok ()⟩
      MODEL_INFO_FILE_NAME "out").2.1 "io error" rfl⟩

/-- The lookup loop falls through to `NotFound` (and writes nothing) when
every index entry is a directory or has a non-matching base name. -/
theorem findEntryLoop_all_skip (env : ZipEnv) (n od : String) :
    ∀ entries : List ZipIndexEntry, (∀ pe ∈ entries, skipsEntry n pe) →
    findEntryLoop env n od entries = (.ok .notFound, []) := by
  intro entries
  induction entries with
  | nil => intro _; rfl
  | cons e rest ih =>
    intro hs
    cases e with
    | readErr msg => exact absurd (hs _ (List.mem_cons_self _ _)) (fun h => h)
    | entry nm isdir cont =>
      have hsk := hs _ (List.mem_cons_self _ _)
      simp only [findEntryLoop]
      rcases hsk with hd | hm
      · simp only [if_pos hd]
        exact ih (fun pe hpe => hs pe (List.mem_cons_of_mem _ hpe))
      · by_cases hd : isdir = true
        · simp only [if_pos hd]
          exact ih (fun pe hpe => hs pe (List.mem_cons_of_mem _ hpe))
        · simp only [if_neg hd, if_neg hm]
          exact ih (fun pe hpe => hs pe (List.mem_cons_of_mem _ hpe))

/-- C5: entry lookup matches on the base file name only — for an archive
whose index is any skipped prefix, then a non-directory entry whose
trailing path component equals the target name, then anything, the loop
extracts that first matching entry's bytes to
`outputDir.join(targetEntryName)` and reports `Extracted`; and a valid
archive with no matching entry reports `NotFound` and writes nothing. -/
theorem c5_base_name_first_match (env : ZipEnv) (n od : String)
    (entries : List ZipIndexEntry) (hopen : env.openResult = .ok ())
    (hparse : env.parseResult = .ok entries)
    (hcreate : env.createResult = .ok ())
    (hcopy : env.copyResult = .ok ()) :
    (∀ pre nm cont post,
      entries = pre ++ ZipIndexEntry.entry nm false cont :: post →
      fileNameOf nm = some n → (∀ pe ∈ pre, skipsEntry n pe) →
      FsPorts.extract_zip_entry_if_exists env n od =
        (.ok .extracted, [⟨od, n, some cont⟩])) ∧
      ((∀ pe ∈ entries, skipsEntry n pe) →
        FsPorts.extract_zip_entry_if_exists env n od =
          (.ok .notFound, [])) := by
  constructor
  · intro pre nm cont post hsplit hname hskips
    unfold FsPorts.extract_zip_entry_if_exists
    rw [hopen, hparse, hsplit]
    clear hsplit hparse
    induction pre with
    | nil =>
      simp [findEntryLoop, hname, hcreate, hcopy]
    | cons pe pre ih =>
      have hsk := hskips _ (List.mem_cons_self _ _)
      cases pe with
      | readErr msg => exact absurd hsk (fun h => h)
      | entry nm' isdir' cont' =>
        rw [List.cons_append]
        rcases hsk with hd | hm
        · simp only [findEntryLoop, if_pos hd]
          exact ih (fun q hq => hskips q (List.mem_cons_of_mem _ hq))
        · by_cases hd : isdir' = true
          · simp only [findEntryLoop, if_pos hd]
            exact ih (fun q hq => hskips q (List.mem_cons_of_mem _ hq))
          · simp only [findEntryLoop, if_neg hd, if_neg hm]
            exact ih (fun q hq => hskips q (List.mem_cons_of_mem _ hq))
  · intro hs
    unfold FsPorts.extract_zip_entry_if_exists
    rw [hopen, hparse]
    exact findEntryLoop_all_skip env n od entries hs

/-- Witness for C5: an archive whose index holds a directory entry, a
non-matching file, then a nested-path match extracts the nested entry. -/
theorem c5_base_name_first_match_witness :
    FsPorts.extract_zip_entry_if_exists
      ⟨.ok (), .ok [ZipIndexEntry.entry "sub/" true [],
        ZipIndexEntry.entry "readme.txt" false [9],
        ZipIndexEntry.entry "sub/dir/model_info.json" false [1, 2, 3]],
        .ok (), .ok ()⟩ "model_info.json" "out" =
      (.ok .extracted, [⟨"out", "model_info.json", some [1, 2, 3]⟩]) :=
  (c5_base_name_first_match
    ⟨.ok (), .ok [ZipIndexEntry.entry "sub/" true [],
      ZipIndexEntry.entry "readme.txt" false [9],
      ZipIndexEntry.entry "sub/dir/model_info.json" false [1, 2, 3]],
      .ok (), .ok ()⟩ "model_info.json" "out"
    [ZipIndexEntry.entry "sub/" true [],
      ZipIndexEntry.entry "readme.txt" false [9],
      ZipIndexEntry.entry "sub/dir/model_info.json" false [1, 2, 3]]
    rfl rfl rfl rfl).1
    [ZipIndexEntry.entry "sub/" true [],
      ZipIndexEntry.entry "readme.txt" false [9]]
    "sub/dir/model_info.json" [1, 2, 3] [] rfl (by decide) (by decide)

set_option maxHeartbeats 2000000 in
/-- C8: on a marker-bearing directory with one archive whose target entry
holds bytes `bs` (with or without a pre-existing output file), a run
extracts exactly once, returns statistics `⟨1, 1, 1, 1⟩`, and leaves the
output file `model_info.json` with exactly the entry's bytes, overwriting
any pre-existing file; running the extraction again on the resulting tree
succeeds with the same final statistics and overwrites the output with
identical content. -/
theorem c8_idempotent_extraction (bs : List Nat) (old : Option (List Nat)) :
    (extract_model_info worldPorts (c8World old bs) "root").2.2 =
        .ok ⟨1, 1, 1, 1⟩ ∧
      (extract_model_info worldPorts (c8World old bs) "root").2.1.lookup
        ("root", "model_info.json") = some (.plain bs) ∧
      (extract_model_info worldPorts
          (extract_model_info worldPorts (c8World old bs) "root").2.1
          "root").2.2 = .ok ⟨1, 1, 1, 1⟩ ∧
      (extract_model_info worldPorts
          (extract_model_info worldPorts (c8World old bs) "root").2.1
          "root").2.1.lookup ("root", "model_info.json") =
        some (.plain bs) := by
  cases old with
  | none => exact ⟨rfl, rfl, rfl, rfl⟩
  | some c => exact ⟨rfl, rfl, rfl, rfl⟩
